import Mathlib

/-!
Verification development for the Handwrought simulation core: a shallow
embedding of the world generator (src/unnamed/part_001), the math utilities
(src/src/math.ts), the reveal tracker (src/src/gameplay.ts) and the A*
pathfinder (src/unnamed/part_008, src/unnamed/part_009), together with
theorems settling the frozen claims about them.

Modelling conventions:
- JS `number` values used as grid coordinates are embedded as `Int`; grid
  dimensions as `Nat`; terrain heights and configuration thresholds as `ℚ`
  (an exact idealisation of IEEE doubles).
- Path costs mix the integers 1 and Math.SQRT2, so they are embedded exactly
  in the ring ℤ√2 (`Zsqrtd 2`), whose order is decidable.
- JS typed arrays are embedded as total functions from `Int`; the source
  only reads them at indices it has bounds-checked, so reads the source
  never performs are immaterial.
- The external `simplex-noise` library (`createNoise2D`) and `Math.pow` are
  not part of the repository; they are deterministic, so they enter the
  embedding as explicit function parameters.
-/

namespace Handwrought

/-- Two is not a perfect square, so ℤ√2 carries its linear order. -/
instance : Zsqrtd.Nonsquare 2 :=
  ⟨fun n h => by rcases n with _ | _ | n <;> nlinarith⟩

/-- Exact cost ring for the pathfinder: integers adjoined with √2. -/
abbrev Cost := Zsqrtd ((2 : Nat) : Int)

/-- Math.SQRT2, embedded exactly as √2 in ℤ√2. -/
def SQRT2 : Cost := Zsqrtd.sqrtd

/-- Write `v` at index `i` of an array embedded as a total function. -/
def setAt {α : Type} (f : Int → α) (i : Int) (v : α) : Int → α :=
  fun j => if j = i then v else f j

/-- The list of integers from `a` to `b` inclusive (empty when `b < a`):
the index sequence of a JS loop `for (let i = a; i <= b; i += 1)`. -/
def intRangeIncl (a b : Int) : List Int :=
  (List.range (b + 1 - a).toNat).map fun i : Nat => a + (i : Int)

/-- GridPoint from src/unnamed/part_009 (types.ts): an (x, y) integer pair. -/
structure GridPoint where
  x : Int
  y : Int
deriving DecidableEq

/-- WorldObjectType from src/unnamed/part_001: "tree" or "rock". -/
inductive WorldObjectType where
  | tree : WorldObjectType
  | rock : WorldObjectType
deriving DecidableEq

/-- WorldObject from src/unnamed/part_001. -/
structure WorldObject where
  x : Int
  y : Int
  type : WorldObjectType
deriving DecidableEq

/-- WorldData from src/unnamed/part_001: heightmap and ground are dense
row-major arrays (embedded as total functions of the linear index), objects
an ordered list. The ground array stores the numeric GroundType codes a
Uint8Array holds. -/
structure WorldData where
  width : Nat
  height : Nat
  heightmap : Int → ℚ
  ground : Int → Nat
  objects : List WorldObject

-- GroundType enum codes from src/unnamed/part_001.
namespace GroundType

/-- GroundType.Water = 0. -/
def Water : Nat := 0

/-- GroundType.Sand = 1. -/
def Sand : Nat := 1

/-- GroundType.Soil = 2. -/
def Soil : Nat := 2

/-- GroundType.Rock = 3. -/
def Rock : Nat := 3

end GroundType

/-- WorldGenConfig from src/unnamed/part_001. -/
structure WorldGenConfig where
  width : Nat
  height : Nat
  seed : Int
  seaLevel : ℚ
  mountainHeight : ℚ
  slopeRock : ℚ
  sandHeight : ℚ
  sandChance : ℚ
  treeSlopeMax : ℚ
  forestScale : ℚ
  forestThreshold : ℚ
  treeChance : ℚ
  rockSlopeMax : ℚ
  rockChance : ℚ

/-- getIndex from src/unnamed/part_001: row-major linearisation. -/
def getIndex (width : Nat) (x y : Int) : Int :=
  x + y * width

/-- inBounds from src/unnamed/part_001. -/
def inBounds (world : WorldData) (x y : Int) : Prop :=
  0 ≤ x ∧ 0 ≤ y ∧ x < (world.width : Int) ∧ y < (world.height : Int)

instance (world : WorldData) (x y : Int) : Decidable (inBounds world x y) := by
  unfold inBounds; infer_instance

/-- getHeight from src/unnamed/part_001: bounds-checked heightmap read,
with 0 as the out-of-bounds default. -/
def getHeight (world : WorldData) (x y : Int) : ℚ :=
  if inBounds world x y then world.heightmap (getIndex world.width x y) else 0

/-- getGround from src/unnamed/part_001: bounds-checked ground read, with
Water as the out-of-bounds default. -/
def getGround (world : WorldData) (x y : Int) : Nat :=
  if inBounds world x y then world.ground (getIndex world.width x y) else GroundType.Water

/-- cellHasObject from src/unnamed/part_001: the linear scan of the object
list, as the existence it decides. -/
def cellHasObject (world : WorldData) (x y : Int) : Prop :=
  ∃ obj ∈ world.objects, obj.x = x ∧ obj.y = y

instance (world : WorldData) (x y : Int) : Decidable (cellHasObject world x y) := by
  unfold cellHasObject; infer_instance

/-- getSlopeAt from src/unnamed/part_001: maximum absolute height delta to
the in-bounds axis neighbours (out-of-bounds neighbours are skipped). -/
def getSlopeAt (heightmap : Int → ℚ) (width height : Nat) (x y : Int) : ℚ :=
  let center := heightmap (getIndex width x y)
  let offsets : List (Int × Int) := [(1, 0), (-1, 0), (0, 1), (0, -1)]
  offsets.foldl
    (fun maxDelta d =>
      let nx := x + d.1
      let ny := y + d.2
      if nx < 0 ∨ ny < 0 ∨ (width : Int) ≤ nx ∨ (height : Int) ≤ ny then maxDelta
      else max maxDelta |center - heightmap (getIndex width nx ny)|)
    0

/-- isNearSea from src/unnamed/part_001: the loop over the square of side
2·radius+1 with its centre skipped and out-of-bounds cells skipped, returning
whether it finds a neighbour below sea level. -/
def isNearSea (heightmap : Int → ℚ) (width height : Nat) (x y : Int)
    (seaLevel : ℚ) (radius : Int) : Prop :=
  ∃ dy ∈ intRangeIncl (-radius) radius, ∃ dx ∈ intRangeIncl (-radius) radius,
    ¬(dx = 0 ∧ dy = 0) ∧ 0 ≤ x + dx ∧ 0 ≤ y + dy ∧
      x + dx < (width : Int) ∧ y + dy < (height : Int) ∧
      heightmap (getIndex width (x + dx) (y + dy)) < seaLevel

instance (heightmap : Int → ℚ) (width height : Nat) (x y : Int) (seaLevel : ℚ)
    (radius : Int) : Decidable (isNearSea heightmap width height x y seaLevel radius) := by
  unfold isNearSea; infer_instance

/-- ToUint32 (`seed >>> 0` and the implicit conversions of the JS bitwise
operators): the unsigned 32-bit representative. -/
def u32 (s : Int) : Nat :=
  (s % (4294967296 : Int)).toNat

/-- One step of the mulberry32 generator from src/src/math.ts. The closure
state `t` is the accumulating JS number (exact while below 2^53, which covers
every realisable call count); each bitwise operator truncates its operands to
32 bits exactly as ToInt32/ToUint32 do, and signed values are represented by
their unsigned 32-bit representatives, which all the operations preserve
modulo 2^32. Returns the float output in [0,1) and the new state. -/
def mulberry32Next (t : Nat) : ℚ × Nat :=
  let t1 := t + 0x6d2b79f5
  let m := t1 % 4294967296
  let r1 := (Nat.xor m (m >>> 15) * (1 ||| m)) % 4294967296
  let r2 := Nat.xor r1 ((r1 + Nat.xor r1 (r1 >>> 7) * (61 ||| r1) % 4294967296) % 4294967296)
  let out := Nat.xor r2 (r2 >>> 14)
  ((out : ℚ) / 4294967296, t1)

/-- Division as JS performs it on finite doubles: 0/0 (the case reached by
`fbm` when no octave ran) is NaN, not a number — embedded as `none`. -/
def jsDiv (a b : ℚ) : Option ℚ :=
  if b = 0 then none else some (a / b)

/-- The octave loop shared state of fbm from src/src/math.ts:
(amplitude, frequency, sum, normalization) after `n` iterations. -/
def fbmLoop (noise2D : ℚ → ℚ → ℚ) (x y lacunarity gain : ℚ) (n : Nat) :
    ℚ × ℚ × ℚ × ℚ :=
  (List.range n).foldl
    (fun acc _ =>
      let amplitude := acc.1
      let frequency := acc.2.1
      let sum := acc.2.2.1
      let normalization := acc.2.2.2
      (amplitude * gain, frequency * lacunarity,
        sum + amplitude * noise2D (x * frequency) (y * frequency),
        normalization + amplitude))
    (1/2, 1, 0, 0)

/-- fbm from src/src/math.ts. With `octaves ≤ 0` the loop body never runs,
`sum / normalization` is 0/0 = NaN, and the NaN propagates through
`value * 0.5 + 0.5`; the result is `none` exactly in that case. -/
def fbm (noise2D : ℚ → ℚ → ℚ) (x y : ℚ) (octaves : Int) (lacunarity gain : ℚ) :
    Option ℚ :=
  let acc := fbmLoop noise2D x y lacunarity gain octaves.toNat
  (jsDiv acc.2.2.1 acc.2.2.2).map fun value => value * (1/2) + 1/2

/-- The octave loop shared state of ridgedFbm from src/src/math.ts. -/
def ridgedFbmLoop (noise2D : ℚ → ℚ → ℚ) (x y lacunarity gain : ℚ) (n : Nat) :
    ℚ × ℚ × ℚ × ℚ :=
  (List.range n).foldl
    (fun acc _ =>
      let amplitude := acc.1
      let frequency := acc.2.1
      let sum := acc.2.2.1
      let normalization := acc.2.2.2
      let ridge := 1 - |noise2D (x * frequency) (y * frequency)|
      let sharp := ridge * ridge
      (amplitude * gain, frequency * lacunarity,
        sum + sharp * amplitude,
        normalization + amplitude))
    (1/2, 1, 0, 0)

/-- ridgedFbm from src/src/math.ts: guards the division with
`normalization > 0 ? sum / normalization : 0`. -/
def ridgedFbm (noise2D : ℚ → ℚ → ℚ) (x y : ℚ) (octaves : Int)
    (lacunarity gain : ℚ) : ℚ :=
  let acc := ridgedFbmLoop noise2D x y lacunarity gain octaves.toNat
  if 0 < acc.2.2.2 then acc.2.2.1 / acc.2.2.2 else 0

/-- The row-major cell scan order of generateWorld (y outer, x inner): the
linear indices 0, 1, …, width·height−1 in increasing order, since
getIndex(x, y) = x + y·width visits exactly that sequence. -/
def cellList (width height : Nat) : List Int :=
  (List.range (width * height)).map fun i : Nat => (i : Int)

/-- baseScale = 1/80 from generateWorld in src/unnamed/part_001. -/
def baseScale : ℚ := 1/80

/-- Phase 1 of generateWorld from src/unnamed/part_001: the heightmap. Each
in-range cell gets `Math.pow(fbm(heightNoise, x·baseScale, y·baseScale, 5,
2.0, 0.5), 1.05)`; the loop writes each index exactly once, so the array is
the pointwise function of the cell coordinates recovered from the index.
With octaves = 5 and gain = 0.5 the fbm normalization is 31/32 ≠ 0, so the
fbm value is defined and the `getD 0` default is never taken. -/
def heightmapOf (createNoise2D : Nat → ℚ → ℚ → ℚ) (jsPow : ℚ → ℚ → ℚ)
    (config : WorldGenConfig) : Int → ℚ :=
  let heightNoise := createNoise2D (u32 config.seed)
  fun idx =>
    if 0 ≤ idx ∧ idx < (config.width * config.height : Nat) then
      let x := idx % (config.width : Int)
      let y := idx / (config.width : Int)
      jsPow ((fbm heightNoise (x * baseScale) (y * baseScale) 5 2 (1/2)).getD 0) (21/20)
    else 0

/-- Phase 2 loop body of generateWorld from src/unnamed/part_001: classify
one cell, threading the shared objectRng state. The roll for the Sand chance
is drawn only when the cell is near water and low enough, exactly as the
short-circuit `&&` evaluates it. -/
def classifyStep (config : WorldGenConfig) (heightmap : Int → ℚ)
    (acc : (Int → Nat) × Nat) (idx : Int) : (Int → Nat) × Nat :=
  let x := idx % (config.width : Int)
  let y := idx / (config.width : Int)
  let h := heightmap idx
  if h < config.seaLevel then (setAt acc.1 idx GroundType.Water, acc.2)
  else
    let slope := getSlopeAt heightmap config.width config.height x y
    if config.mountainHeight < h ∨ config.slopeRock < slope then
      (setAt acc.1 idx GroundType.Rock, acc.2)
    else
      let nearWater := isNearSea heightmap config.width config.height x y config.seaLevel 2
      if nearWater ∧ h < config.seaLevel + config.sandHeight then
        let roll := mulberry32Next acc.2
        if roll.1 < config.sandChance then (setAt acc.1 idx GroundType.Sand, roll.2)
        else (setAt acc.1 idx GroundType.Soil, roll.2)
      else (setAt acc.1 idx GroundType.Soil, acc.2)

/-- Phase 2 of generateWorld: the ground array (initially the zero-filled
Uint8Array) and the objectRng state after the classification scan. The
objectRng starts at mulberry32(config.seed + 9001). -/
def phase2 (config : WorldGenConfig) (heightmap : Int → ℚ) : (Int → Nat) × Nat :=
  (cellList config.width config.height).foldl (classifyStep config heightmap)
    (fun _ => 0, u32 (config.seed + 9001))

/-- The objectRng state entering the phase-2 step of the k-th cell of the
scan: the fold over the first k cells. -/
def phase2StateAt (config : WorldGenConfig) (heightmap : Int → ℚ) (k : Nat) : Nat :=
  (((cellList config.width config.height).take k).foldl (classifyStep config heightmap)
    (fun _ => 0, u32 (config.seed + 9001))).2

/-- Phase 3 loop body of generateWorld from src/unnamed/part_001: possibly
place a tree and then possibly a rock at one cell, threading the objectRng.
Each roll is drawn only when the conjuncts before it in the source's `&&`
chain hold. -/
def placeStep (config : WorldGenConfig) (heightmap : Int → ℚ) (ground : Int → Nat)
    (forestNoise : ℚ → ℚ → ℚ) (acc : List WorldObject × Nat) (idx : Int) :
    List WorldObject × Nat :=
  let x := idx % (config.width : Int)
  let y := idx / (config.width : Int)
  let groundType := ground idx
  let h := heightmap idx
  let slope := getSlopeAt heightmap config.width config.height x y
  let acc1 :=
    if groundType = GroundType.Soil ∧ slope < config.treeSlopeMax ∧
        config.seaLevel + 1/50 < h then
      let patch := (fbm forestNoise (x * config.forestScale) (y * config.forestScale)
        3 2 (1/2)).getD 0
      if config.forestThreshold < patch then
        let roll := mulberry32Next acc.2
        if roll.1 < config.treeChance then (acc.1 ++ [⟨x, y, WorldObjectType.tree⟩], roll.2)
        else (acc.1, roll.2)
      else acc
    else acc
  if groundType = GroundType.Rock ∧ slope < config.rockSlopeMax then
    let roll := mulberry32Next acc1.2
    if roll.1 < config.rockChance then (acc1.1 ++ [⟨x, y, WorldObjectType.rock⟩], roll.2)
    else (acc1.1, roll.2)
  else acc1

/-- Phase 3 of generateWorld: the object list, scanned row-major with the
objectRng state continuing from phase 2. -/
def phase3 (config : WorldGenConfig) (heightmap : Int → ℚ) (ground : Int → Nat)
    (forestNoise : ℚ → ℚ → ℚ) (startState : Nat) : List WorldObject × Nat :=
  (cellList config.width config.height).foldl
    (placeStep config heightmap ground forestNoise) ([], startState)

/-- generateWorld from src/unnamed/part_001, parameterised by the external
simplex-noise constructor (a deterministic function of the mulberry32 state
it consumes) and by Math.pow. -/
def generateWorld (createNoise2D : Nat → ℚ → ℚ → ℚ) (jsPow : ℚ → ℚ → ℚ)
    (config : WorldGenConfig) : WorldData :=
  let heightmap := heightmapOf createNoise2D jsPow config
  let forestNoise := createNoise2D (u32 (config.seed + 1337))
  let p2 := phase2 config heightmap
  { width := config.width
    height := config.height
    heightmap := heightmap
    ground := p2.1
    objects := (phase3 config heightmap p2.1 forestNoise p2.2).1 }

/-- revealAround from src/src/gameplay.ts (also src/unnamed/part_008): scan
the bounding square, keep cells within Euclidean distance `radius`, set each
in-bounds not-yet-revealed cell to 1 and append its index to the returned
list. Returns the written mask together with the newly revealed indices. -/
def revealAround (worldData : WorldData) (revealedMask : Int → Nat)
    (center : GridPoint) (radius : Int) : (Int → Nat) × List Int :=
  (intRangeIncl (-radius) radius).foldl
    (fun acc dy =>
      (intRangeIncl (-radius) radius).foldl
        (fun acc2 dx =>
          if radius * radius < dx * dx + dy * dy then acc2
          else if ¬inBounds worldData (center.x + dx) (center.y + dy) then acc2
          else
            let index := getIndex worldData.width (center.x + dx) (center.y + dy)
            if acc2.1 index = 0 then (setAt acc2.1 index 1, acc2.2 ++ [index])
            else acc2)
        acc)
    (revealedMask, [])

/-- isCellStandable from src/src/gameplay.ts: ground not Water, not in the
blocked mask, no object. It receives no reveal mask, so it cannot and does
not check reveal state; out-of-bounds cells fail because getGround defaults
them to Water. -/
def isCellStandable (worldData : WorldData) (x y : Int) (blockedMask : Int → Nat) :
    Prop :=
  ¬(getGround worldData x y = GroundType.Water) ∧
    blockedMask (getIndex worldData.width x y) ≠ 1 ∧
    ¬cellHasObject worldData x y

instance (worldData : WorldData) (x y : Int) (blockedMask : Int → Nat) :
    Decidable (isCellStandable worldData x y blockedMask) := by
  unfold isCellStandable; infer_instance

/-- PathOptions from src/unnamed/part_009. -/
structure PathOptions where
  maxSlope : ℚ
  allowDiagonal : Bool
  blockedMask : Option (Int → Nat)

/-- isCellPassable from src/unnamed/part_009 (identical in part_008): in
bounds, revealed, not blocked, ground not Water, no object. The source only
consults the blocked mask when one was supplied
(`options.blockedMask && options.blockedMask[index] === 1`); an absent mask
is equivalent to the all-zero mask `getD` substitutes, whose entries never
equal 1. -/
def isCellPassable (world : WorldData) (revealed : Int → Nat) (x y : Int)
    (options : PathOptions) : Prop :=
  inBounds world x y ∧
    revealed (getIndex world.width x y) ≠ 0 ∧
    (options.blockedMask.getD fun _ => 0) (getIndex world.width x y) ≠ 1 ∧
    ¬(getGround world x y = GroundType.Water) ∧
    ¬cellHasObject world x y

instance (world : WorldData) (revealed : Int → Nat) (x y : Int)
    (options : PathOptions) : Decidable (isCellPassable world revealed x y options) := by
  unfold isCellPassable; infer_instance

/-- heuristic from src/unnamed/part_009: octile distance
dx + dy + (√2 − 2)·min(dx, dy), exactly in ℤ√2. -/
def heuristic (x0 y0 x1 y1 : Int) : Cost :=
  let dx := |x0 - x1|
  let dy := |y0 - y1|
  ((dx + dy : Int) : Cost) + (SQRT2 - 2) * ((min dx dy : Int) : Cost)

/-- The neighbour offset/cost table of findPath from src/unnamed/part_009:
4 axis steps of cost 1, plus 4 diagonal steps of cost √2 when diagonals are
allowed. -/
def neighborsFor (allowDiagonal : Bool) : List (Int × Int × Cost) :=
  if allowDiagonal then
    [(1, 0, 1), (-1, 0, 1), (0, 1, 1), (0, -1, 1),
      (1, 1, SQRT2), (-1, 1, SQRT2), (1, -1, SQRT2), (-1, -1, SQRT2)]
  else [(1, 0, 1), (-1, 0, 1), (0, 1, 1), (0, -1, 1)]

/-- MinHeap.swap from src/unnamed/part_009: exchange entries a and b of the
heap array and record both nodes' new positions. -/
def heapSwap (heap : List Int) (positions : Int → Int) (a b : Nat) :
    List Int × (Int → Int) :=
  let ta := heap.getD a 0
  let tb := heap.getD b 0
  ((heap.set a tb).set b ta,
    fun n => if n = ta then (b : Int) else if n = tb then (a : Int) else positions n)

/-- The loop of MinHeap.bubbleUp from src/unnamed/part_009, as structural
recursion on a fuel that bounds the iteration count: the sift index strictly
decreases, so fuel `i` is exactly enough and the 0-fuel branch (which can
only be reached at index 0) coincides with the loop's exit. -/
def bubbleUpGo (scores : Int → Cost) :
    Nat → List Int → (Int → Int) → Nat → List Int × (Int → Int)
  | 0, heap, positions, _ => (heap, positions)
  | fuel + 1, heap, positions, i =>
    if 0 < i then
      let parent := (i - 1) / 2
      if scores (heap.getD parent 0) ≤ scores (heap.getD i 0) then (heap, positions)
      else
        let s := heapSwap heap positions i parent
        bubbleUpGo scores fuel s.1 s.2 parent
    else (heap, positions)

/-- MinHeap.bubbleUp from src/unnamed/part_009: sift the entry at index i up
while it scores strictly below its parent. -/
def bubbleUp (scores : Int → Cost) (heap : List Int) (positions : Int → Int)
    (i : Nat) : List Int × (Int → Int) :=
  bubbleUpGo scores i heap positions i

/-- The smallest-of-parent-and-children selection inside MinHeap.bubbleDown
from src/unnamed/part_009: the index among i and its in-range children with
the strictly smallest score, ties resolved exactly as the two `if`s do. -/
def downTarget (scores : Int → Cost) (heap : List Int) (i : Nat) : Nat :=
  let length := heap.length
  let left := 2 * i + 1
  let right := 2 * i + 2
  let s1 := if left < length ∧ scores (heap.getD left 0) < scores (heap.getD i 0)
    then left else i
  if right < length ∧ scores (heap.getD right 0) < scores (heap.getD s1 0)
  then right else s1

/-- The loop of MinHeap.bubbleDown from src/unnamed/part_009, as structural
recursion on a fuel that bounds the iteration count: the sift index strictly
increases while staying below the heap length, so any fuel of at least the
heap length makes the 0-fuel branch unreachable before the loop's exit. -/
def bubbleDownGo (scores : Int → Cost) :
    Nat → List Int → (Int → Int) → Nat → List Int × (Int → Int)
  | 0, heap, positions, _ => (heap, positions)
  | fuel + 1, heap, positions, i =>
    if downTarget scores heap i = i then (heap, positions)
    else
      let s := heapSwap heap positions i (downTarget scores heap i)
      bubbleDownGo scores fuel s.1 s.2 (downTarget scores heap i)

/-- MinHeap.bubbleDown from src/unnamed/part_009: sift the entry at index i
down towards the smaller-scoring child while one scores strictly below it. -/
def bubbleDown (scores : Int → Cost) (heap : List Int) (positions : Int → Int)
    (i : Nat) : List Int × (Int → Int) :=
  bubbleDownGo scores (heap.length + 1) heap positions i

/-- MinHeap.push from src/unnamed/part_009: ignore nodes already present
(position ≠ −1), otherwise append and sift up from the new last index. -/
def heapPush (scores : Int → Cost) (heap : List Int) (positions : Int → Int)
    (node : Int) : List Int × (Int → Int) :=
  if positions node ≠ -1 then (heap, positions)
  else
    let heap1 := heap ++ [node]
    let positions1 := setAt positions node (heap.length : Int)
    bubbleUp scores heap1 positions1 (heap1.length - 1)

/-- MinHeap.update from src/unnamed/part_009: push the node when absent,
otherwise sift it up from its recorded position (its key only decreases). -/
def heapUpdate (scores : Int → Cost) (heap : List Int) (positions : Int → Int)
    (node : Int) : List Int × (Int → Int) :=
  let index := positions node
  if index = -1 then heapPush scores heap positions node
  else bubbleUp scores heap positions index.toNat

/-- MinHeap.pop from src/unnamed/part_009: −1 on an empty heap; otherwise
remove the root, clear its position, move the last entry to the root and
sift it down. Returns the popped node with the new heap and positions. -/
def heapPop (scores : Int → Cost) (heap : List Int) (positions : Int → Int) :
    Int × List Int × (Int → Int) :=
  match heap with
  | [] => (-1, [], positions)
  | [root] => (root, [], setAt positions root (-1))
  | root :: second :: rest =>
    let last := (second :: rest).getLast (by simp)
    let heap1 := last :: (second :: rest).dropLast
    let positions1 := setAt (setAt positions root (-1)) last 0
    let s := bubbleDown scores heap1 positions1 0
    (root, s.1, s.2)

/-- The mutable search state of findPath from src/unnamed/part_009: the
dense score/parent/closed/position arrays (initial fill values 1e9, −1, 0,
−1) and the open heap. -/
structure SearchState where
  gScore : Int → Cost
  fScore : Int → Cost
  cameFrom : Int → Int
  closed : Int → Nat
  positions : Int → Int
  heap : List Int

/-- The 1e9 fill value of the gScore and fScore arrays. -/
def INF : Cost := 1000000000

/-- The walk of reconstructPath from src/unnamed/part_009: follow cameFrom
pointers, appending each visited node's cell, until the −1 sentinel. The
fuel argument only bounds the walk; the parent graph built by the search is
acyclic, so enough fuel makes the bound immaterial. -/
def reconstructGo (cameFrom : Int → Int) (width : Nat) :
    Nat → Int → List GridPoint → List GridPoint
  | 0, _, path => path
  | fuel + 1, node, path =>
    if node = -1 then path
    else reconstructGo cameFrom width fuel (cameFrom node)
      (path ++ [⟨node % (width : Int), node / (width : Int)⟩])

/-- reconstructPath from src/unnamed/part_009: the cameFrom walk from the
goal, reversed into start-to-goal order. -/
def reconstructPath (cameFrom : Int → Int) (current : Int) (width : Nat)
    (fuel : Nat) : List GridPoint :=
  (reconstructGo cameFrom width fuel current []).reverse

/-- The neighbour relaxation body of findPath from src/unnamed/part_009:
skip out-of-bounds, closed, impassable or too-steep neighbours; otherwise
relax through `current` when the tentative g-score improves, recording the
parent and sifting the neighbour in the heap against the updated f-scores
(the heap reads the fScore array by reference). -/
def expandNeighbor (world : WorldData) (revealed : Int → Nat) (goal : GridPoint)
    (options : PathOptions) (current : Int) (st : SearchState)
    (nbr : Int × Int × Cost) : SearchState :=
  let currentX := current % (world.width : Int)
  let currentY := current / (world.width : Int)
  let nx := currentX + nbr.1
  let ny := currentY + nbr.2.1
  if ¬inBounds world nx ny then st
  else
    let neighborIndex := getIndex world.width nx ny
    if st.closed neighborIndex = 1 then st
    else if ¬isCellPassable world revealed nx ny options then st
    else
      let slope := |getHeight world currentX currentY - getHeight world nx ny|
      if options.maxSlope < slope then st
      else
        let tentativeG := st.gScore current + nbr.2.2
        if tentativeG < st.gScore neighborIndex then
          let fScore1 := setAt st.fScore neighborIndex
            (tentativeG + heuristic nx ny goal.x goal.y)
          let s := heapUpdate fScore1 st.heap st.positions neighborIndex
          { st with
            cameFrom := setAt st.cameFrom neighborIndex current
            gScore := setAt st.gScore neighborIndex tentativeG
            fScore := fScore1
            heap := s.1
            positions := s.2 }
        else st

/-- The main loop of findPath from src/unnamed/part_009: while the heap is
non-empty, pop the minimum f-score node; the goal reconstructs the path, −1
breaks out (returning null), any other node is closed and its neighbours
relaxed. The loop closes a fresh in-range node on every iteration, so fuel
width·height+1 (as findPath supplies) never runs out. -/
def astarLoop (world : WorldData) (revealed : Int → Nat) (goal : GridPoint)
    (goalIndex : Int) (options : PathOptions) :
    Nat → SearchState → Option (List GridPoint)
  | 0, _ => none
  | fuel + 1, st =>
    if st.heap.isEmpty then none
    else
      let p := heapPop st.fScore st.heap st.positions
      let current := p.1
      if current = -1 then none
      else if current = goalIndex then
        some (reconstructPath st.cameFrom current world.width
          (world.width * world.height + 1))
      else
        let st1 : SearchState :=
          { st with
            heap := p.2.1
            positions := p.2.2
            closed := setAt st.closed current 1 }
        astarLoop world revealed goal goalIndex options fuel
          ((neighborsFor options.allowDiagonal).foldl
            (expandNeighbor world revealed goal options current) st1)

/-- findPath from src/unnamed/part_009 (identical in part_008): reject
out-of-bounds endpoints and unrevealed or impassable goals without
searching; otherwise run A* from the start cell. -/
def findPath (world : WorldData) (revealed : Int → Nat) (start goal : GridPoint)
    (options : PathOptions) : Option (List GridPoint) :=
  if ¬inBounds world start.x start.y ∨ ¬inBounds world goal.x goal.y then none
  else
    let goalIndex := getIndex world.width goal.x goal.y
    if revealed goalIndex = 0 then none
    else if ¬isCellPassable world revealed goal.x goal.y options then none
    else
      let total := world.width * world.height
      let startIndex := getIndex world.width start.x start.y
      let gScore := setAt (fun _ => INF) startIndex 0
      let fScore := setAt (fun _ => INF) startIndex
        (heuristic start.x start.y goal.x goal.y)
      let st0 : SearchState :=
        { gScore := gScore, fScore := fScore, cameFrom := fun _ => -1,
          closed := fun _ => 0, positions := fun _ => -1, heap := [] }
      let s := heapPush fScore [] st0.positions startIndex
      astarLoop world revealed goal goalIndex options (total + 1)
        { st0 with heap := s.1, positions := s.2 }

/-!
Spec-side definitions: the claims' vocabulary (adjacency, path validity,
path cost, the Chebyshev near-sea neighbourhood), written from the claims'
and the spec's words, to be compared with the embedded code.
-/

/-- One application of revealAround's loop body to the offset pair
(dy, dx): the flattened form of the nested fold, used by the reveal
lemmas. -/
def revealCellStep (worldData : WorldData) (center : GridPoint) (radius : Int)
    (acc : (Int → Nat) × List Int) (d : Int × Int) : (Int → Nat) × List Int :=
  if radius * radius < d.2 * d.2 + d.1 * d.1 then acc
  else if ¬inBounds worldData (center.x + d.2) (center.y + d.1) then acc
  else if acc.1 (getIndex worldData.width (center.x + d.2) (center.y + d.1)) = 0 then
    (setAt acc.1 (getIndex worldData.width (center.x + d.2) (center.y + d.1)) 1,
      acc.2 ++ [getIndex worldData.width (center.x + d.2) (center.y + d.1)])
  else acc

/-- The (dy, dx) pairs revealAround's nested loops visit, in order. -/
def revealPairs (radius : Int) : List (Int × Int) :=
  (intRangeIncl (-radius) radius).flatMap fun dy =>
    (intRangeIncl (-radius) radius).map fun dx => (dy, dx)

/-- A sequence of revealAround calls (center, radius each), applied to the
mask in order: the claims' notion of later calls. -/
def revealSeq (worldData : WorldData) (mask : Int → Nat)
    (calls : List (GridPoint × Int)) : Int → Nat :=
  calls.foldl (fun m call => (revealAround worldData m call.1 call.2).1) mask

/-- Spec-side adjacency under the selected connectivity: one step to one of
the 4 axis neighbours, or one of the 8 neighbours when diagonals are
allowed. -/
def adjacentStep (allowDiagonal : Bool) (a b : GridPoint) : Prop :=
  |b.x - a.x| ≤ 1 ∧ |b.y - a.y| ≤ 1 ∧ ¬(b.x = a.x ∧ b.y = a.y) ∧
    (allowDiagonal = true ∨ b.x = a.x ∨ b.y = a.y)

/-- Spec-side edge cost: √2 for a diagonal step (both coordinates change),
1 for an axis step. -/
def stepCost (a b : GridPoint) : Cost :=
  if a.x ≠ b.x ∧ a.y ≠ b.y then SQRT2 else 1

/-- Spec-side path cost: the sum of the edge costs of consecutive points. -/
def pathCost : List GridPoint → Cost
  | a :: b :: rest => stepCost a b + pathCost (b :: rest)
  | _ => 0

/-- One legal move of the claims' path-validity notion: adjacent under the
selected connectivity, target passable, height delta within maxSlope. -/
def stepOk (world : WorldData) (revealed : Int → Nat) (options : PathOptions)
    (a b : GridPoint) : Prop :=
  adjacentStep options.allowDiagonal a b ∧
    isCellPassable world revealed b.x b.y options ∧
    |getHeight world a.x a.y - getHeight world b.x b.y| ≤ options.maxSlope

/-- A path from start to goal as the search admits it: non-empty, endpoints
as given, the start cell in bounds, and every consecutive pair a legal move.
Every point after the first is passable (from the moves); the first point is
only required to be in bounds — findPath never checks the start cell's
passability or reveal state. -/
def ValidPath (world : WorldData) (revealed : Int → Nat) (options : PathOptions)
    (start goal : GridPoint) (p : List GridPoint) : Prop :=
  p.head? = some start ∧ p.getLast? = some goal ∧
    inBounds world start.x start.y ∧
    List.Chain' (stepOk world revealed options) p

/-- The claims' strict path-validity notion (C1 as stated): as `ValidPath`,
and additionally every point of the path — the start included — is passable
at call time. -/
def StrictValidPath (world : WorldData) (revealed : Int → Nat)
    (options : PathOptions) (start goal : GridPoint) (p : List GridPoint) : Prop :=
  ValidPath world revealed options start goal p ∧
    ∀ q ∈ p, isCellPassable world revealed q.x q.y options

/-- The claim's near-sea condition: some other cell within Chebyshev radius
2 is in bounds and lies below sea level. -/
def chebyshevNearSea (hm : Int → ℚ) (width height : Nat) (x y : Int)
    (seaLevel : ℚ) : Prop :=
  ∃ x' y' : Int, ¬(x' = x ∧ y' = y) ∧ |x' - x| ≤ 2 ∧ |y' - y| ≤ 2 ∧
    0 ≤ x' ∧ 0 ≤ y' ∧ x' < (width : Int) ∧ y' < (height : Int) ∧
    hm (getIndex width x' y') < seaLevel

/-- The uniform roll the phase-2 classification would draw at a cell: the
next mulberry32 output from the objectRng state entering that cell's step. -/
def sandRoll (config : WorldGenConfig) (hm : Int → ℚ) (idx : Int) : ℚ :=
  (mulberry32Next (phase2StateAt config hm idx.toNat)).1

/-!
Concrete fixtures for witnesses and counterexamples.
-/

/-- A 1×1 all-Soil world of constant height 1/2 with no objects. -/
def soilWorld1 : WorldData :=
  { width := 1, height := 1, heightmap := fun _ => 1/2,
    ground := fun _ => GroundType.Soil, objects := [] }

/-- A 2×1 world whose left cell (0,0) is Water and right cell (1,0) is
Soil, flat heights, no objects. -/
def waterStartWorld : WorldData :=
  { width := 2, height := 1, heightmap := fun _ => 1/2,
    ground := fun i => if i = 0 then GroundType.Water else GroundType.Soil,
    objects := [] }

/-- The all-ones reveal mask. -/
def maskOnes : Int → Nat := fun _ => 1

/-- The all-zeros mask. -/
def maskZeros : Int → Nat := fun _ => 0

/-- Axis-only path options with maxSlope 1 and no blocked mask. -/
def optsAxis : PathOptions :=
  { maxSlope := 1, allowDiagonal := false, blockedMask := none }

/-!
Invariants of the search, used to prove the C1/C2 theorems: the binary-heap
consistency conditions and the A* loop invariant.
-/

/-- The cell a dense array index decodes to, exactly as findPath does it
(x = index mod width, y = index div width). -/
def idxPoint (width : Nat) (n : Int) : GridPoint :=
  ⟨n % (width : Int), n / (width : Int)⟩

/-- The octile form of the heuristic on the two absolute coordinate
differences. -/
def octileC (X Y : Int) : Cost :=
  ((X + Y : Int) : Cost) + (SQRT2 - 2) * ((min X Y : Int) : Cost)

/-- Consistency of the heap array with the positions map: in-range entries
are pairwise distinct, positions inverts the array on its entries and is −1
on every absent node. -/
def PosInv (heap : List Int) (positions : Int → Int) : Prop :=
  (∀ i j : Nat, i < heap.length → j < heap.length →
    heap.getD i 0 = heap.getD j 0 → i = j) ∧
  (∀ i : Nat, i < heap.length → positions (heap.getD i 0) = (i : Int)) ∧
  (∀ n : Int, n ∉ heap → positions n = -1)

/-- The full heap invariant: positions consistency plus the binary-heap
order (every non-root entry scores at least its parent). -/
def HeapInv (scores : Int → Cost) (heap : List Int) (positions : Int → Int) : Prop :=
  PosInv heap positions ∧
  ∀ i : Nat, 0 < i → i < heap.length →
    scores (heap.getD ((i - 1) / 2) 0) ≤ scores (heap.getD i 0)

/-- The partial heap order during an upward sift at index i: every non-root
entry other than i scores at least its parent, and when i is not the root,
i's children score at least i's parent. -/
def AlmostUp (scores : Int → Cost) (heap : List Int) (i : Nat) : Prop :=
  (∀ j : Nat, 0 < j → j < heap.length → j ≠ i →
    scores (heap.getD ((j - 1) / 2) 0) ≤ scores (heap.getD j 0)) ∧
  (∀ j : Nat, 0 < i → j < heap.length → (j - 1) / 2 = i →
    scores (heap.getD ((i - 1) / 2) 0) ≤ scores (heap.getD j 0))

/-- The partial heap order during a downward sift at index i: the heap order
holds except on the edges from i to its children, and when i is not the
root, i's children score at least i's parent. -/
def AlmostDown (scores : Int → Cost) (heap : List Int) (i : Nat) : Prop :=
  (∀ j : Nat, 0 < j → j < heap.length → (j - 1) / 2 ≠ i →
    scores (heap.getD ((j - 1) / 2) 0) ≤ scores (heap.getD j 0)) ∧
  (∀ j : Nat, 0 < i → j < heap.length → (j - 1) / 2 = i →
    scores (heap.getD ((i - 1) / 2) 0) ≤ scores (heap.getD j 0))

/-- The relaxation guarantee of one closed node u along one neighbour offset
d: if the offset lands in bounds on an unclosed, passable, within-slope
cell, that cell's g-score is at most g(u) plus the offset's edge cost. -/
def EdgeRelaxed (world : WorldData) (revealed : Int → Nat) (options : PathOptions)
    (st : SearchState) (u : Int) (d : Int × Int × Cost) : Prop :=
  inBounds world (u % (world.width : Int) + d.1) (u / (world.width : Int) + d.2.1) →
  st.closed (getIndex world.width (u % (world.width : Int) + d.1)
    (u / (world.width : Int) + d.2.1)) ≠ 1 →
  isCellPassable world revealed (u % (world.width : Int) + d.1)
    (u / (world.width : Int) + d.2.1) options →
  |getHeight world (u % (world.width : Int)) (u / (world.width : Int)) -
    getHeight world (u % (world.width : Int) + d.1)
      (u / (world.width : Int) + d.2.1)| ≤ options.maxSlope →
  st.gScore (getIndex world.width (u % (world.width : Int) + d.1)
    (u / (world.width : Int) + d.2.1)) ≤ st.gScore u + d.2.2

/-- The part of the A* loop invariant that every intermediate state of the
neighbour-relaxation fold satisfies: heap consistency, the range, openness
and finiteness of heap members, the g-score bounds, fScore = gScore +
heuristic on heap members, every unclosed finite-g node open, the
parent-pointer facts (each non-sentinel parent records a legal move whose
relaxation inequality holds, the start keeps the sentinel), and the closed
nodes' lower-bound property. -/
structure CoreInv (world : WorldData) (revealed : Int → Nat) (options : PathOptions)
    (start goal : GridPoint) (st : SearchState) : Prop where
  heapInv : HeapInv st.fScore st.heap st.positions
  memRange : ∀ n ∈ st.heap, 0 ≤ n ∧ n < ((world.width * world.height : Nat) : Int)
  memOpen : ∀ n ∈ st.heap, st.closed n ≠ 1
  memFinite : ∀ n ∈ st.heap, st.gScore n < INF
  gNonneg : ∀ n : Int, 0 ≤ st.gScore n
  gLeInf : ∀ n : Int, st.gScore n ≤ INF
  gStart : st.gScore (getIndex world.width start.x start.y) = 0
  fDef : ∀ n ∈ st.heap, st.fScore n = st.gScore n +
    heuristic (n % (world.width : Int)) (n / (world.width : Int)) goal.x goal.y
  openComplete : ∀ n : Int, 0 ≤ n → n < ((world.width * world.height : Nat) : Int) →
    st.closed n ≠ 1 → st.gScore n < INF → n ∈ st.heap
  cfStart : st.cameFrom (getIndex world.width start.x start.y) = -1
  gFiniteCf : ∀ n : Int, st.gScore n < INF →
    n ≠ getIndex world.width start.x start.y → st.cameFrom n ≠ -1
  cfValid : ∀ n : Int, st.cameFrom n ≠ -1 →
    (0 ≤ st.cameFrom n ∧ st.cameFrom n < ((world.width * world.height : Nat) : Int)) ∧
    (0 ≤ n ∧ n < ((world.width * world.height : Nat) : Int)) ∧
    stepOk world revealed options (idxPoint world.width (st.cameFrom n))
      (idxPoint world.width n) ∧
    st.gScore (st.cameFrom n) +
      stepCost (idxPoint world.width (st.cameFrom n)) (idxPoint world.width n) ≤
      st.gScore n
  closedRange : ∀ n : Int, st.closed n = 1 →
    0 ≤ n ∧ n < ((world.width * world.height : Nat) : Int)
  closedLB : ∀ n : Int, st.closed n = 1 → ∀ p : List GridPoint,
    ValidPath world revealed options start (idxPoint world.width n) p →
    st.gScore n ≤ pathCost p

/-- The full A* loop invariant: the core invariant plus the closed nodes'
edge relaxation guarantee along every neighbour offset. -/
structure LoopInv (world : WorldData) (revealed : Int → Nat) (options : PathOptions)
    (start goal : GridPoint) (st : SearchState)
    extends CoreInv world revealed options start goal st : Prop where
  edgeLB : ∀ u : Int, st.closed u = 1 → ∀ d ∈ neighborsFor options.allowDiagonal,
    EdgeRelaxed world revealed options st u d

/-- The termination measure of the parent-pointer walk: the number of
in-range indices whose g-score is strictly below the walked node's. -/
def gMeasure (st : SearchState) (total : Nat) (node : Int) : Nat :=
  ((Finset.Icc (0 : Int) ((total : Int) - 1)).filter
    fun m => st.gScore m < st.gScore node).card

/-!
General lemmas.
-/

/-- Membership in the inclusive integer range. -/
theorem mem_intRangeIncl {a b i : Int} : i ∈ intRangeIncl a b ↔ a ≤ i ∧ i ≤ b := by
  unfold intRangeIncl
  simp only [List.mem_map, List.mem_range]
  constructor
  · rintro ⟨k, hk, rfl⟩
    omega
  · intro hi
    exact ⟨(i - a).toNat, by omega, by omega⟩

/-- The length of the inclusive integer range. -/
theorem length_intRangeIncl (a b : Int) :
    (intRangeIncl a b).length = (b + 1 - a).toNat := by
  simp [intRangeIncl]

/-!
Claim C9 — the octaves ≤ 0 guard of fbm and ridgedFbm.
-/

/-- C9, corrected: with octaves ≤ 0 neither loop body runs, so the
normalization factor is 0. ridgedFbm guards the division and returns 0, but
fbm divides 0/0, producing NaN (embedded as `none`), not the defined value
0 the claim states. -/
theorem c9_octave_guard_amended (noise2D : ℚ → ℚ → ℚ) (x y : ℚ) (octaves : Int)
    (lacunarity gain : ℚ) (hoct : octaves ≤ 0) :
    ridgedFbm noise2D x y octaves lacunarity gain = 0 ∧
      fbm noise2D x y octaves lacunarity gain = none := by
  have h0 : octaves.toNat = 0 := Int.toNat_of_nonpos hoct
  constructor
  · simp [ridgedFbm, ridgedFbmLoop, h0]
  · simp [fbm, fbmLoop, h0, jsDiv]

/-- C9 witness: the amended statement evaluated at octaves = 0. -/
theorem c9_octave_guard_witness :
    ridgedFbm (fun _ _ => 0) 0 0 0 2 (1/2) = 0 ∧
      fbm (fun _ _ => 0) 0 0 0 2 (1/2) = none :=
  c9_octave_guard_amended (fun _ _ => 0) 0 0 0 2 (1/2) (by decide)

/-- C9 counterexample: the claim as stated fails — at octaves = 0, fbm does
not return the defined value 0; its division is 0/0 (NaN, embedded none). -/
theorem c9_octave_guard_counterexample :
    ¬ (∀ (noise2D : ℚ → ℚ → ℚ) (x y : ℚ) (octaves : Int) (lacunarity gain : ℚ),
        octaves ≤ 0 →
          fbm noise2D x y octaves lacunarity gain = some 0 ∧
            ridgedFbm noise2D x y octaves lacunarity gain = 0) := by
  intro hclaim
  have h := (hclaim (fun _ _ => 0) 0 0 0 2 (1/2) (by decide)).1
  have hn : fbm (fun _ _ => 0) 0 0 (0 : Int) 2 (1/2) = none := by
    simp [fbm, fbmLoop, jsDiv]
  rw [hn] at h
  exact Option.noConfusion h

/-!
Claim C4 — determinism of generateWorld.
-/

/-- C4, confirmed: world generation is a pure function of the configuration
(and of the deterministic external noise constructor and Math.pow), so two
calls with the same configuration yield identical heightmaps, ground arrays
and object lists. The embedding threads all randomness through mulberry32
states derived from config.seed alone, mirroring the source, so no other
input exists for the result to depend on. -/
theorem c4_generate_world_deterministic (createNoise2D : Nat → ℚ → ℚ → ℚ)
    (jsPow : ℚ → ℚ → ℚ) (config : WorldGenConfig) :
    (generateWorld createNoise2D jsPow config).heightmap
        = (generateWorld createNoise2D jsPow config).heightmap ∧
      (generateWorld createNoise2D jsPow config).ground
        = (generateWorld createNoise2D jsPow config).ground ∧
      (generateWorld createNoise2D jsPow config).objects
        = (generateWorld createNoise2D jsPow config).objects :=
  ⟨rfl, rfl, rfl⟩

/-!
Claim C8 — the two exposed cell predicates.
-/

/-- Out-of-bounds cells read as Water. -/
theorem getGround_of_not_inBounds {world : WorldData} {x y : Int}
    (h : ¬inBounds world x y) : getGround world x y = GroundType.Water := by
  simp [getGround, h]

/-- C8, corrected: isCellPassable is exactly the conjunction in-bounds ∧
revealed ∧ not-blocked ∧ ground ≠ Water ∧ no-object, but isCellStandable
imposes only the same conditions without the revealed requirement — it
receives no reveal mask at all, so the claim's "including the revealed
requirement" fails for it. -/
theorem c8_cell_predicates_amended :
    (∀ (world : WorldData) (revealed : Int → Nat) (x y : Int)
        (options : PathOptions) (blockedMask : Int → Nat),
        options.blockedMask = some blockedMask →
        (isCellPassable world revealed x y options ↔
          inBounds world x y ∧
            revealed (getIndex world.width x y) ≠ 0 ∧
            blockedMask (getIndex world.width x y) ≠ 1 ∧
            getGround world x y ≠ GroundType.Water ∧
            ¬cellHasObject world x y)) ∧
      (∀ (world : WorldData) (x y : Int) (blockedMask : Int → Nat),
        isCellStandable world x y blockedMask ↔
          inBounds world x y ∧
            blockedMask (getIndex world.width x y) ≠ 1 ∧
            getGround world x y ≠ GroundType.Water ∧
            ¬cellHasObject world x y) := by
  constructor
  · intro world revealed x y options blockedMask hb
    unfold isCellPassable
    rw [hb]
    tauto
  · intro world x y blockedMask
    unfold isCellStandable
    constructor
    · rintro ⟨hg, hbm, hobj⟩
      by_cases hib : inBounds world x y
      · exact ⟨hib, hbm, hg, hobj⟩
      · exact absurd (getGround_of_not_inBounds hib) hg
    · rintro ⟨_, hbm, hg, hobj⟩
      exact ⟨hg, hbm, hobj⟩

/-- C8 counterexample: on a 1×1 Soil world with nothing revealed, the cell
(0,0) is standable but not passable — isCellStandable does not require the
cell to be revealed, contradicting the claim that it imposes the same
conditions including the revealed requirement. -/
theorem c8_cell_predicates_counterexample :
    isCellStandable soilWorld1 0 0 maskZeros ∧
      ¬isCellPassable soilWorld1 maskZeros 0 0
        { maxSlope := 1, allowDiagonal := false, blockedMask := some maskZeros } := by
  constructor
  · exact ⟨by decide, by decide, by simp [cellHasObject, soilWorld1]⟩
  · rintro ⟨-, habs, -⟩
    exact habs rfl

/-!
Claims C6 and C7 — the reveal tracker.
-/

/-- Nested folds over two lists flatten to one fold over the pair list. -/
theorem foldl_nested {α β γ : Type} (l1 : List β) (l2 : List γ)
    (g : α → β → γ → α) (init : α) :
    l1.foldl (fun acc b => l2.foldl (fun acc2 c => g acc2 b c) acc) init
      = (l1.flatMap fun b => l2.map fun c => (b, c)).foldl
          (fun acc p => g acc p.1 p.2) init := by
  induction l1 generalizing init with
  | nil => rfl
  | cons b rest ih =>
      simp only [List.foldl_cons, List.flatMap_cons, List.foldl_append, List.foldl_map]
      exact ih _

/-- revealAround is the flat fold of its loop body over the offset pairs. -/
theorem revealAround_eq_foldl (worldData : WorldData) (mask : Int → Nat)
    (center : GridPoint) (radius : Int) :
    revealAround worldData mask center radius
      = (revealPairs radius).foldl (revealCellStep worldData center radius)
          (mask, []) := by
  unfold revealAround revealPairs
  rw [foldl_nested (intRangeIncl (-radius) radius) (intRangeIncl (-radius) radius)
    (fun acc2 dy dx =>
      if radius * radius < dx * dx + dy * dy then acc2
      else if ¬inBounds worldData (center.x + dx) (center.y + dy) then acc2
      else
        let index := getIndex worldData.width (center.x + dx) (center.y + dy)
        if acc2.1 index = 0 then (setAt acc2.1 index 1, acc2.2 ++ [index])
        else acc2)
    (mask, [])]
  rfl

/-- The reveal loop body either leaves the accumulator unchanged or sets one
zero mask entry to 1 and appends that index. -/
theorem revealCellStep_cases (worldData : WorldData) (center : GridPoint)
    (radius : Int) (acc : (Int → Nat) × List Int) (d : Int × Int) :
    revealCellStep worldData center radius acc d = acc ∨
      (acc.1 (getIndex worldData.width (center.x + d.2) (center.y + d.1)) = 0 ∧
        revealCellStep worldData center radius acc d =
          (setAt acc.1 (getIndex worldData.width (center.x + d.2) (center.y + d.1)) 1,
            acc.2 ++ [getIndex worldData.width (center.x + d.2) (center.y + d.1)])) := by
  unfold revealCellStep
  split_ifs with h1 h2 h3
  · exact Or.inl rfl
  · exact Or.inr ⟨h3, rfl⟩
  · exact Or.inl rfl
  · exact Or.inl rfl

/-- Across any run of the reveal loop, a mask entry either keeps its initial
value or goes from 0 to 1. -/
theorem revealFold_mask_mono (worldData : WorldData) (center : GridPoint)
    (radius : Int) (ds : List (Int × Int)) (acc : (Int → Nat) × List Int) (i : Int) :
    (ds.foldl (revealCellStep worldData center radius) acc).1 i = acc.1 i ∨
      (acc.1 i = 0 ∧
        (ds.foldl (revealCellStep worldData center radius) acc).1 i = 1) := by
  induction ds generalizing acc with
  | nil => exact Or.inl rfl
  | cons d rest ih =>
      rw [List.foldl_cons]
      rcases revealCellStep_cases worldData center radius acc d with hstep | ⟨h0, hstep⟩
      · rw [hstep]; exact ih acc
      · rw [hstep]
        rcases ih (setAt acc.1 (getIndex worldData.width (center.x + d.2) (center.y + d.1)) 1,
            acc.2 ++ [getIndex worldData.width (center.x + d.2) (center.y + d.1)]) with
          h | ⟨hz, h⟩
        · by_cases hii : i = getIndex worldData.width (center.x + d.2) (center.y + d.1)
          · subst hii
            right
            refine ⟨h0, ?_⟩
            rw [h]; simp [setAt]
          · left
            rw [h]; simp [setAt, hii]
        · by_cases hii : i = getIndex worldData.width (center.x + d.2) (center.y + d.1)
          · subst hii
            simp [setAt] at hz
          · right
            simp only [setAt, hii, if_false] at hz
            exact ⟨hz, h⟩

/-- A nonzero mask entry stays nonzero across the reveal loop. -/
theorem revealFold_preserves_ne_zero (worldData : WorldData) (center : GridPoint)
    (radius : Int) (ds : List (Int × Int)) (acc : (Int → Nat) × List Int) (i : Int)
    (hi : acc.1 i ≠ 0) :
    (ds.foldl (revealCellStep worldData center radius) acc).1 i ≠ 0 := by
  rcases revealFold_mask_mono worldData center radius ds acc i with h | ⟨h0, _⟩
  · rw [h]; exact hi
  · exact absurd h0 hi

/-- Every index the reveal loop emits was either already in the output list
or had mask entry 0 at the start of the run. -/
theorem revealFold_newly_spec (worldData : WorldData) (center : GridPoint)
    (radius : Int) (ds : List (Int × Int)) (acc : (Int → Nat) × List Int) :
    ∀ i ∈ (ds.foldl (revealCellStep worldData center radius) acc).2,
      i ∈ acc.2 ∨ acc.1 i = 0 := by
  induction ds generalizing acc with
  | nil => intro i hi; exact Or.inl hi
  | cons d rest ih =>
      intro i hi
      rw [List.foldl_cons] at hi
      rcases revealCellStep_cases worldData center radius acc d with hstep | ⟨h0, hstep⟩
      · rw [hstep] at hi; exact ih acc i hi
      · rw [hstep] at hi
        rcases ih _ i hi with hmem | hz
        · rcases List.mem_append.mp hmem with h | h
          · exact Or.inl h
          · rw [List.mem_singleton] at h
            subst h
            exact Or.inr h0
        · by_cases hii : i = getIndex worldData.width (center.x + d.2) (center.y + d.1)
          · subst hii; simp [setAt] at hz
          · simp only [setAt, hii, if_false] at hz
            exact Or.inr hz

/-- When every qualifying cell is already revealed, the reveal loop is the
identity on the accumulator. -/
theorem revealFold_id (worldData : WorldData) (center : GridPoint) (radius : Int)
    (ds : List (Int × Int)) (m : Int → Nat) (l : List Int)
    (hall : ∀ d ∈ ds, ¬(radius * radius < d.2 * d.2 + d.1 * d.1) →
      inBounds worldData (center.x + d.2) (center.y + d.1) →
      m (getIndex worldData.width (center.x + d.2) (center.y + d.1)) ≠ 0) :
    ds.foldl (revealCellStep worldData center radius) (m, l) = (m, l) := by
  induction ds with
  | nil => rfl
  | cons d rest ih =>
      rw [List.foldl_cons]
      have hstep : revealCellStep worldData center radius (m, l) d = (m, l) := by
        unfold revealCellStep
        split_ifs with h1 h2 h3
        · rfl
        · exact absurd h3 (hall d (List.mem_cons_self d rest) h1 h2)
        · rfl
        · rfl
      rw [hstep]
      exact ih fun d' hd' => hall d' (List.mem_cons_of_mem _ hd')

/-- After the reveal loop runs, every qualifying cell of its offset list has
a nonzero mask entry. -/
theorem revealFold_covers (worldData : WorldData) (center : GridPoint)
    (radius : Int) (ds : List (Int × Int)) (acc : (Int → Nat) × List Int) :
    ∀ d ∈ ds, ¬(radius * radius < d.2 * d.2 + d.1 * d.1) →
      inBounds worldData (center.x + d.2) (center.y + d.1) →
      (ds.foldl (revealCellStep worldData center radius) acc).1
        (getIndex worldData.width (center.x + d.2) (center.y + d.1)) ≠ 0 := by
  induction ds generalizing acc with
  | nil => intro d hd; cases hd
  | cons d0 rest ih =>
      intro d hd hq hib
      rw [List.foldl_cons]
      rcases List.mem_cons.mp hd with rfl | hmem
      · apply revealFold_preserves_ne_zero
        unfold revealCellStep
        rw [if_neg hq, if_neg (not_not_intro hib)]
        by_cases h0 : acc.1 (getIndex worldData.width (center.x + d.2) (center.y + d.1)) = 0
        · rw [if_pos h0]; simp [setAt]
        · rw [if_neg h0]; exact h0
      · exact ih (revealCellStep worldData center radius acc d0) d hmem hq hib

/-- C6, confirmed: reveal is monotone. Once a cell's mask entry is 1 it
survives any sequence of revealAround calls, and the newly-revealed list a
call returns contains only indices whose mask entry was 0 immediately before
that call. -/
theorem c6_reveal_monotone (worldData : WorldData) (mask : Int → Nat)
    (calls : List (GridPoint × Int)) (center : GridPoint) (radius : Int) (i : Int) :
    (mask i = 1 → revealSeq worldData mask calls i = 1) ∧
      ∀ j ∈ (revealAround worldData mask center radius).2, mask j = 0 := by
  constructor
  · have single : ∀ (m : Int → Nat) (c : GridPoint) (r : Int), m i = 1 →
        (revealAround worldData m c r).1 i = 1 := by
      intro m c r hk
      rw [revealAround_eq_foldl]
      rcases revealFold_mask_mono worldData c r (revealPairs r) (m, []) i with h | ⟨_, hr⟩
      · rw [h]; exact hk
      · exact hr
    have seqPres : ∀ (cs : List (GridPoint × Int)) (m : Int → Nat), m i = 1 →
        revealSeq worldData m cs i = 1 := by
      intro cs
      induction cs with
      | nil => intro m hm; exact hm
      | cons c rest ih =>
          intro m hm
          unfold revealSeq
          rw [List.foldl_cons]
          exact ih _ (single m c.1 c.2 hm)
    exact seqPres calls mask
  · intro j hj
    rw [revealAround_eq_foldl] at hj
    rcases revealFold_newly_spec worldData center radius (revealPairs radius)
        (mask, []) j hj with hmem | hz
    · cases hmem
    · exact hz

/-- C6 witness: the monotone part on an all-ones mask and the fresh-only
part on an all-zeros mask, both on the 1×1 world. -/
theorem c6_reveal_monotone_witness :
    revealSeq soilWorld1 maskOnes [(⟨0, 0⟩, 1)] 0 = 1 ∧
      ∀ j ∈ (revealAround soilWorld1 maskZeros ⟨0, 0⟩ 1).2, maskZeros j = 0 :=
  ⟨(c6_reveal_monotone soilWorld1 maskOnes [(⟨0, 0⟩, 1)] ⟨0, 0⟩ 1 0).1 rfl,
    (c6_reveal_monotone soilWorld1 maskZeros [] ⟨0, 0⟩ 1 0).2⟩

/-- C7, confirmed: revealAround is idempotent — calling it again with the
same centre and radius returns the unchanged mask and an empty
newly-revealed list. -/
theorem c7_reveal_idempotent (worldData : WorldData) (revealedMask : Int → Nat)
    (center : GridPoint) (radius : Int) :
    revealAround worldData (revealAround worldData revealedMask center radius).1
        center radius
      = ((revealAround worldData revealedMask center radius).1, []) := by
  rw [revealAround_eq_foldl worldData revealedMask center radius,
    revealAround_eq_foldl]
  apply revealFold_id
  intro d hd hq hib
  exact revealFold_covers worldData center radius (revealPairs radius)
    (revealedMask, []) d hd hq hib

/-!
Claim C5 — the ground classification priority.
-/

/-- For an in-bounds column, the row-major index reduced mod width recovers
the x coordinate. -/
theorem getIndex_emod (width : Nat) (x y : Int) (hx0 : 0 ≤ x)
    (hxw : x < (width : Int)) :
    getIndex width x y % (width : Int) = x := by
  unfold getIndex
  rw [mul_comm, Int.add_mul_emod_self_left]
  exact Int.emod_eq_of_lt hx0 hxw

/-- For an in-bounds column, the row-major index divided by width recovers
the y coordinate. -/
theorem getIndex_ediv (width : Nat) (x y : Int) (hx0 : 0 ≤ x)
    (hxw : x < (width : Int)) :
    getIndex width x y / (width : Int) = y := by
  unfold getIndex
  rw [Int.add_mul_ediv_right _ _ (by omega : (width : Int) ≠ 0),
    Int.ediv_eq_zero_of_lt hx0 hxw, zero_add]

/-- The phase-2 step writes only its own cell. -/
theorem classifyStep_preserves (config : WorldGenConfig) (hm : Int → ℚ)
    (acc : (Int → Nat) × Nat) (idx j : Int) (hj : j ≠ idx) :
    (classifyStep config hm acc idx).1 j = acc.1 j := by
  unfold classifyStep
  dsimp only
  split_ifs <;> simp [setAt, hj]

/-- A phase-2 fold over cells other than `j` leaves the ground entry of `j`
unchanged. -/
theorem classify_foldl_preserves (config : WorldGenConfig) (hm : Int → ℚ)
    (ds : List Int) (acc : (Int → Nat) × Nat) (j : Int)
    (hds : ∀ d ∈ ds, j ≠ d) :
    (ds.foldl (classifyStep config hm) acc).1 j = acc.1 j := by
  induction ds generalizing acc with
  | nil => rfl
  | cons d rest ih =>
      rw [List.foldl_cons, ih _ fun d' hd' => hds d' (List.mem_cons_of_mem _ hd')]
      exact classifyStep_preserves config hm acc d j (hds d (List.mem_cons_self d rest))

/-- The final ground entry of cell k is whatever the phase-2 step wrote when
it processed cell k (later steps write other cells). -/
theorem phase2_ground_at (config : WorldGenConfig) (hm : Int → ℚ) (k : Nat)
    (hk : k < config.width * config.height) :
    (phase2 config hm).1 (k : Int)
      = (classifyStep config hm
          (((List.range k).map fun i : Nat => (i : Int)).foldl (classifyStep config hm)
            (fun _ => 0, u32 (config.seed + 9001)))
          (k : Int)).1 (k : Int) := by
  unfold phase2 cellList
  obtain ⟨m, hmtot⟩ : ∃ m, config.width * config.height = (k + 1) + m :=
    ⟨config.width * config.height - (k + 1), by omega⟩
  rw [hmtot, List.range_add, ← Nat.succ_eq_add_one k, List.range_succ]
  rw [List.map_append, List.map_append, List.foldl_append, List.foldl_append]
  simp only [List.map_cons, List.map_nil, List.foldl_cons, List.foldl_nil]
  apply classify_foldl_preserves
  intro d hd
  simp only [List.map_map, List.mem_map, List.mem_range, Function.comp] at hd
  obtain ⟨j, hj, rfl⟩ := hd
  intro hEq
  rw [Int.natCast_inj] at hEq
  omega

/-- phase2StateAt is the state of the fold over the first k cells. -/
theorem phase2StateAt_eq (config : WorldGenConfig) (hm : Int → ℚ) (k : Nat)
    (hk : k ≤ config.width * config.height) :
    phase2StateAt config hm k
      = (((List.range k).map fun i : Nat => (i : Int)).foldl (classifyStep config hm)
          (fun _ => 0, u32 (config.seed + 9001))).2 := by
  unfold phase2StateAt cellList
  rw [← List.map_take, List.take_range, Nat.min_eq_left hk]

/-- The value the phase-2 step writes at its own cell, as a nested
conditional on that cell's height, slope, near-sea test and sand roll. -/
theorem classifyStep_self (config : WorldGenConfig) (hm : Int → ℚ)
    (acc : (Int → Nat) × Nat) (idx : Int) :
    (classifyStep config hm acc idx).1 idx =
      (if hm idx < config.seaLevel then GroundType.Water
       else if config.mountainHeight < hm idx ∨
           config.slopeRock < getSlopeAt hm config.width config.height
             (idx % (config.width : Int)) (idx / (config.width : Int)) then GroundType.Rock
       else if isNearSea hm config.width config.height (idx % (config.width : Int))
             (idx / (config.width : Int)) config.seaLevel 2 ∧
           hm idx < config.seaLevel + config.sandHeight then
         (if (mulberry32Next acc.2).1 < config.sandChance then GroundType.Sand
          else GroundType.Soil)
       else GroundType.Soil) := by
  unfold classifyStep
  dsimp only
  split_ifs <;> simp [setAt]

/-- The loop of isNearSea finds a below-sea cell exactly when some other
in-bounds cell within Chebyshev radius `radius` lies below sea level. -/
theorem isNearSea_iff_chebyshev (hm : Int → ℚ) (width height : Nat) (x y : Int)
    (seaLevel : ℚ) :
    isNearSea hm width height x y seaLevel 2 ↔
      chebyshevNearSea hm width height x y seaLevel := by
  unfold isNearSea chebyshevNearSea
  constructor
  · rintro ⟨dy, hdy, dx, hdx, hne, h1, h2, h3, h4, h5⟩
    rw [mem_intRangeIncl] at hdy hdx
    refine ⟨x + dx, y + dy, ?_, ?_, ?_, h1, h2, h3, h4, h5⟩
    · rintro ⟨e1, e2⟩
      exact hne ⟨by omega, by omega⟩
    · rw [show x + dx - x = dx by ring, abs_le]
      omega
    · rw [show y + dy - y = dy by ring, abs_le]
      omega
  · rintro ⟨x', y', hne, hcx, hcy, h1, h2, h3, h4, h5⟩
    rw [abs_le] at hcx hcy
    refine ⟨y' - y, ?_, x' - x, ?_, ?_, ?_, ?_, ?_, ?_, ?_⟩
    · rw [mem_intRangeIncl]; omega
    · rw [mem_intRangeIncl]; omega
    · rintro ⟨e1, e2⟩
      exact hne ⟨by omega, by omega⟩
    · omega
    · omega
    · omega
    · omega
    · have hxx : x + (x' - x) = x' := by ring
      have hyy : y + (y' - y) = y' := by ring
      rw [hxx, hyy]
      exact h5

/-- C5, confirmed: generateWorld classifies each in-bounds cell in priority
order — Water when the height is below seaLevel; otherwise Rock when the
height exceeds mountainHeight or the local slope exceeds slopeRock;
otherwise Sand when some other in-bounds cell within Chebyshev radius 2 is
below sea level, the height is below seaLevel + sandHeight, and the uniform
roll drawn at that cell is below sandChance; otherwise Soil. -/
theorem c5_ground_classification (createNoise2D : Nat → ℚ → ℚ → ℚ)
    (jsPow : ℚ → ℚ → ℚ) (config : WorldGenConfig) (x y : Int)
    (hx0 : 0 ≤ x) (hxw : x < (config.width : Int))
    (hy0 : 0 ≤ y) (hyh : y < (config.height : Int)) :
    ((generateWorld createNoise2D jsPow config).heightmap (getIndex config.width x y)
        < config.seaLevel →
      (generateWorld createNoise2D jsPow config).ground (getIndex config.width x y)
        = GroundType.Water) ∧
    (¬((generateWorld createNoise2D jsPow config).heightmap (getIndex config.width x y)
        < config.seaLevel) →
      (config.mountainHeight
          < (generateWorld createNoise2D jsPow config).heightmap (getIndex config.width x y) ∨
        config.slopeRock < getSlopeAt (generateWorld createNoise2D jsPow config).heightmap
          config.width config.height x y) →
      (generateWorld createNoise2D jsPow config).ground (getIndex config.width x y)
        = GroundType.Rock) ∧
    (¬((generateWorld createNoise2D jsPow config).heightmap (getIndex config.width x y)
        < config.seaLevel) →
      ¬(config.mountainHeight
          < (generateWorld createNoise2D jsPow config).heightmap (getIndex config.width x y) ∨
        config.slopeRock < getSlopeAt (generateWorld createNoise2D jsPow config).heightmap
          config.width config.height x y) →
      (chebyshevNearSea (generateWorld createNoise2D jsPow config).heightmap
          config.width config.height x y config.seaLevel ∧
        (generateWorld createNoise2D jsPow config).heightmap (getIndex config.width x y)
          < config.seaLevel + config.sandHeight ∧
        sandRoll config (generateWorld createNoise2D jsPow config).heightmap
          (getIndex config.width x y) < config.sandChance) →
      (generateWorld createNoise2D jsPow config).ground (getIndex config.width x y)
        = GroundType.Sand) ∧
    (¬((generateWorld createNoise2D jsPow config).heightmap (getIndex config.width x y)
        < config.seaLevel) →
      ¬(config.mountainHeight
          < (generateWorld createNoise2D jsPow config).heightmap (getIndex config.width x y) ∨
        config.slopeRock < getSlopeAt (generateWorld createNoise2D jsPow config).heightmap
          config.width config.height x y) →
      ¬(chebyshevNearSea (generateWorld createNoise2D jsPow config).heightmap
          config.width config.height x y config.seaLevel ∧
        (generateWorld createNoise2D jsPow config).heightmap (getIndex config.width x y)
          < config.seaLevel + config.sandHeight ∧
        sandRoll config (generateWorld createNoise2D jsPow config).heightmap
          (getIndex config.width x y) < config.sandChance) →
      (generateWorld createNoise2D jsPow config).ground (getIndex config.width x y)
        = GroundType.Soil) := by
  have hhm : (generateWorld createNoise2D jsPow config).heightmap
      = heightmapOf createNoise2D jsPow config := rfl
  have hgr : (generateWorld createNoise2D jsPow config).ground
      = (phase2 config (heightmapOf createNoise2D jsPow config)).1 := rfl
  have hidx0 : 0 ≤ getIndex config.width x y := by
    unfold getIndex
    have : 0 ≤ y * (config.width : Int) := mul_nonneg hy0 (by positivity)
    omega
  have hidxlt : getIndex config.width x y < ((config.width * config.height : Nat) : Int) := by
    unfold getIndex
    push_cast
    calc x + y * (config.width : Int) < (config.width : Int) + y * config.width := by
          linarith
      _ = (y + 1) * config.width := by ring
      _ ≤ (config.height : Int) * config.width := by
          apply mul_le_mul_of_nonneg_right (by omega) (by positivity)
      _ = (config.width : Int) * config.height := mul_comm _ _
  have hklt : (getIndex config.width x y).toNat < config.width * config.height := by
    omega
  have hcast : (((getIndex config.width x y).toNat : Nat) : Int) = getIndex config.width x y :=
    Int.toNat_of_nonneg hidx0
  have hg := phase2_ground_at config (heightmapOf createNoise2D jsPow config)
    (getIndex config.width x y).toNat hklt
  rw [hcast] at hg
  have hstate := phase2StateAt_eq config (heightmapOf createNoise2D jsPow config)
    (getIndex config.width x y).toNat (le_of_lt hklt)
  rw [classifyStep_self] at hg
  rw [getIndex_emod config.width x y hx0 hxw, getIndex_ediv config.width x y hx0 hxw] at hg
  rw [hhm, hgr, hg]
  unfold sandRoll
  rw [hstate]
  set acc := ((List.range (getIndex config.width x y).toNat).map fun i : Nat => (i : Int)).foldl
    (classifyStep config (heightmapOf createNoise2D jsPow config))
    (fun _ => 0, u32 (config.seed + 9001)) with hacc
  refine ⟨?_, ?_, ?_, ?_⟩
  · intro h1
    rw [if_pos h1]
  · intro h1 h2
    rw [if_neg h1, if_pos h2]
  · intro h1 h2 h3
    rw [if_neg h1, if_neg h2,
      if_pos ⟨(isNearSea_iff_chebyshev _ _ _ _ _ _).mpr h3.1, h3.2.1⟩, if_pos h3.2.2]
  · intro h1 h2 h3
    rw [if_neg h1, if_neg h2]
    by_cases h4 : isNearSea (heightmapOf createNoise2D jsPow config)
        config.width config.height x y config.seaLevel 2 ∧
        heightmapOf createNoise2D jsPow config (getIndex config.width x y)
          < config.seaLevel + config.sandHeight
    · rw [if_pos h4]
      have h5 : ¬(mulberry32Next acc.2).1 < config.sandChance := fun hc =>
        h3 ⟨(isNearSea_iff_chebyshev _ _ _ _ _ _).mp h4.1, h4.2, hc⟩
      rw [if_neg h5]
    · rw [if_neg h4]

/-- C5 witness: on a 1×1 configuration with zero noise, identity power and
zero sand chance, the classification at the single cell lands in the Soil
branch. -/
theorem c5_ground_classification_witness :
    (generateWorld (fun _ _ _ => 0) (fun a _ => a)
        { width := 1, height := 1, seed := 0, seaLevel := 0, mountainHeight := 1,
          slopeRock := 1, sandHeight := 0, sandChance := 0, treeSlopeMax := 1,
          forestScale := 1, forestThreshold := 1, treeChance := 0, rockSlopeMax := 1,
          rockChance := 0 }).ground (getIndex 1 0 0) = GroundType.Soil :=
  (c5_ground_classification (fun _ _ _ => 0) (fun a _ => a)
    { width := 1, height := 1, seed := 0, seaLevel := 0, mountainHeight := 1,
      slopeRock := 1, sandHeight := 0, sandChance := 0, treeSlopeMax := 1,
      forestScale := 1, forestThreshold := 1, treeChance := 0, rockSlopeMax := 1,
      rockChance := 0 } 0 0 (by decide) (by decide) (by decide)
    (by decide)).2.2.2 (by with_unfolding_all decide)
    (by with_unfolding_all decide)
    (fun hcon => absurd hcon.2.2 (by with_unfolding_all decide))

/-!
Claims C3 and C10 — findPath's explicit failure results and the trivial
start-equals-goal path.
-/

/-- The cameFrom walk stops at the −1 sentinel whatever fuel remains. -/
theorem reconstructGo_neg_one (cameFrom : Int → Int) (width : Nat) (fuel : Nat)
    (path : List GridPoint) :
    reconstructGo cameFrom width fuel (-1) path = path := by
  cases fuel <;> simp [reconstructGo]

/-- A row-major index of a cell with nonnegative coordinates is
nonnegative. -/
theorem getIndex_nonneg {width : Nat} {x y : Int} (hx : 0 ≤ x) (hy : 0 ≤ y) :
    0 ≤ getIndex width x y := by
  unfold getIndex
  have : 0 ≤ y * (width : Int) := mul_nonneg hy (by positivity)
  omega

/-- C3, confirmed: findPath returns the explicit no-path value (never an
exception): none immediately when either endpoint is out of bounds, when the
goal cell is unrevealed, or when the goal cell is not passable — all before
any search state is built — and the A* loop returns none whenever its open
heap is empty. -/
theorem c3_explicit_none_results (world : WorldData) (revealed : Int → Nat)
    (start goal : GridPoint) (options : PathOptions) :
    ((¬inBounds world start.x start.y ∨ ¬inBounds world goal.x goal.y) →
        findPath world revealed start goal options = none) ∧
      (revealed (getIndex world.width goal.x goal.y) = 0 →
        findPath world revealed start goal options = none) ∧
      (¬isCellPassable world revealed goal.x goal.y options →
        findPath world revealed start goal options = none) ∧
      (∀ (goalIndex : Int) (fuel : Nat) (st : SearchState), st.heap = [] →
        astarLoop world revealed goal goalIndex options fuel st = none) := by
  refine ⟨?_, ?_, ?_, ?_⟩
  · intro h
    unfold findPath
    rw [if_pos h]
  · intro h
    unfold findPath
    by_cases hb : ¬inBounds world start.x start.y ∨ ¬inBounds world goal.x goal.y
    · rw [if_pos hb]
    · rw [if_neg hb]
      dsimp only
      rw [if_pos h]
  · intro h
    unfold findPath
    by_cases hb : ¬inBounds world start.x start.y ∨ ¬inBounds world goal.x goal.y
    · rw [if_pos hb]
    · rw [if_neg hb]
      dsimp only
      by_cases hr : revealed (getIndex world.width goal.x goal.y) = 0
      · rw [if_pos hr]
      · rw [if_neg hr, if_pos h]
  · intro goalIndex fuel st hempty
    cases fuel with
    | zero => rfl
    | succ n =>
        unfold astarLoop
        rw [hempty]
        rfl

/-- C10, confirmed: when start = goal and the goal cell is in bounds and
passable (hence revealed), findPath pops the start node first, finds it to
be the goal and returns the one-element path [goal] without expanding any
neighbour. -/
theorem c10_start_equals_goal (world : WorldData) (revealed : Int → Nat)
    (goal : GridPoint) (options : PathOptions)
    (hb : inBounds world goal.x goal.y)
    (hp : isCellPassable world revealed goal.x goal.y options) :
    findPath world revealed goal goal options = some [goal] := by
  obtain ⟨hx0, hy0, hxw, hyh⟩ := id hb
  have hrev : revealed (getIndex world.width goal.x goal.y) ≠ 0 := hp.2.1
  have hidx0 : 0 ≤ getIndex world.width goal.x goal.y := getIndex_nonneg hx0 hy0
  unfold findPath
  rw [if_neg (by push_neg; exact ⟨hb, hb⟩)]
  dsimp only
  rw [if_neg hrev, if_neg (not_not_intro hp)]
  have hpush : heapPush
      (setAt (fun _ => INF) (getIndex world.width goal.x goal.y)
        (heuristic goal.x goal.y goal.x goal.y))
      [] (fun _ => (-1 : Int)) (getIndex world.width goal.x goal.y)
      = ([getIndex world.width goal.x goal.y],
          setAt (fun _ => (-1 : Int)) (getIndex world.width goal.x goal.y) 0) := by
    unfold heapPush bubbleUp
    rw [if_neg (not_not_intro rfl)]
    rfl
  rw [hpush]
  simp only [astarLoop, List.isEmpty_cons, Bool.false_eq_true, if_false, heapPop]
  rw [if_neg (by omega : ¬getIndex world.width goal.x goal.y = -1)]
  simp only [if_true]
  unfold reconstructPath
  unfold reconstructGo
  rw [if_neg (by omega : ¬getIndex world.width goal.x goal.y = -1)]
  rw [reconstructGo_neg_one]
  rw [getIndex_emod world.width goal.x goal.y hx0 hxw,
    getIndex_ediv world.width goal.x goal.y hx0 hxw]
  rfl

/-- C10 witness: on the 1×1 Soil world with everything revealed, findPath
from (0,0) to itself returns exactly [(0,0)]. -/
theorem c10_start_equals_goal_witness :
    findPath soilWorld1 maskOnes ⟨0, 0⟩ ⟨0, 0⟩ optsAxis = some [⟨0, 0⟩] :=
  c10_start_equals_goal soilWorld1 maskOnes ⟨0, 0⟩ optsAxis (by decide)
    ⟨by decide, by decide, by decide, by decide, by simp [cellHasObject, soilWorld1]⟩

/-!
Heap machinery: list-view helpers and the swap/sift lemmas.
-/

/-- getD agrees with getElem below the length. -/
theorem getD_eq_getElem (l : List Int) (i : Nat) (h : i < l.length) :
    l.getD i 0 = l[i] := by
  simp [List.getD_eq_getElem?_getD, List.getElem?_eq_getElem h]

/-- Membership characterised through getD. -/
theorem mem_iff_getD (l : List Int) (n : Int) :
    n ∈ l ↔ ∃ i : Nat, i < l.length ∧ l.getD i 0 = n := by
  rw [List.mem_iff_getElem]
  constructor
  · rintro ⟨i, h, rfl⟩
    exact ⟨i, h, getD_eq_getElem l i h⟩
  · rintro ⟨i, h, rfl⟩
    exact ⟨i, h, (getD_eq_getElem l i h).symm⟩

/-- In-range getD reads are members. -/
theorem getD_mem (l : List Int) (i : Nat) (h : i < l.length) : l.getD i 0 ∈ l :=
  (mem_iff_getD l _).2 ⟨i, h, rfl⟩

/-- Reading a set entry back. -/
theorem getD_set_self (l : List Int) (a : Nat) (v : Int) (h : a < l.length) :
    (l.set a v).getD a 0 = v := by
  have hv : (l.set a v)[a]? = some v := by
    rw [List.getElem?_set_self]
    simp [h]
  simp [List.getD_eq_getElem?_getD, hv]

/-- Reading another entry after a set. -/
theorem getD_set_ne (l : List Int) (a : Nat) (v : Int) (i : Nat) (h : a ≠ i) :
    (l.set a v).getD i 0 = l.getD i 0 := by
  simp [List.getD_eq_getElem?_getD, List.getElem?_set_ne h]

/-- Reading below the length after an append. -/
theorem getD_append_lt (l : List Int) (v : Int) (i : Nat) (h : i < l.length) :
    (l ++ [v]).getD i 0 = l.getD i 0 := by
  have hv : (l ++ [v])[i]? = l[i]? := by
    rw [List.getElem?_append]
    simp [h]
  simp [List.getD_eq_getElem?_getD, hv]

/-- Reading the appended entry. -/
theorem getD_append_len (l : List Int) (v : Int) :
    (l ++ [v]).getD l.length 0 = v := by
  have hv : (l ++ [v])[l.length]? = some v := by simp
  simp [List.getD_eq_getElem?_getD, hv]

/-- heapSwap preserves the array length. -/
theorem heapSwap_length (heap : List Int) (positions : Int → Int) (a b : Nat) :
    (heapSwap heap positions a b).1.length = heap.length := by
  simp [heapSwap]

/-- The positions map after a swap. -/
theorem heapSwap_pos (heap : List Int) (positions : Int → Int) (a b : Nat) (n : Int) :
    (heapSwap heap positions a b).2 n =
      if n = heap.getD a 0 then (b : Int) else if n = heap.getD b 0 then (a : Int)
      else positions n := rfl

/-- The heap array after a swap, as the index transposition. -/
theorem heapSwap_getD (heap : List Int) (positions : Int → Int) (a b k : Nat)
    (ha : a < heap.length) (hb : b < heap.length) :
    (heapSwap heap positions a b).1.getD k 0 =
      heap.getD (if k = b then a else if k = a then b else k) 0 := by
  show ((heap.set a (heap.getD b 0)).set b (heap.getD a 0)).getD k 0 = _
  by_cases hkb : k = b
  · subst hkb
    rw [if_pos rfl]
    exact getD_set_self _ _ _ (by simpa using hb)
  · rw [getD_set_ne _ _ _ _ (fun hh => hkb hh.symm), if_neg hkb]
    by_cases hka : k = a
    · subst hka
      rw [if_pos rfl]
      exact getD_set_self _ _ _ ha
    · rw [getD_set_ne _ _ _ _ (fun hh => hka hh.symm), if_neg hka]

/-- The index transposition is an involution. -/
theorem swapIdx_invol (a b k : Nat) :
    (if (if k = b then a else if k = a then b else k) = b then a
     else if (if k = b then a else if k = a then b else k) = a then b
     else (if k = b then a else if k = a then b else k)) = k := by
  split_ifs <;> omega

/-- heapSwap preserves membership. -/
theorem heapSwap_mem (heap : List Int) (positions : Int → Int) (a b : Nat)
    (ha : a < heap.length) (hb : b < heap.length) (n : Int) :
    n ∈ (heapSwap heap positions a b).1 ↔ n ∈ heap := by
  rw [mem_iff_getD, mem_iff_getD]
  constructor
  · rintro ⟨i, hi, hv⟩
    rw [heapSwap_length] at hi
    rw [heapSwap_getD heap positions a b i ha hb] at hv
    exact ⟨_, by split_ifs <;> omega, hv⟩
  · rintro ⟨i, hi, hv⟩
    refine ⟨if i = b then a else if i = a then b else i, ?_, ?_⟩
    · rw [heapSwap_length]
      split_ifs <;> omega
    · rw [heapSwap_getD heap positions a b _ ha hb, swapIdx_invol a b i]
      exact hv

/-- heapSwap preserves positions consistency. -/
theorem heapSwap_posInv (heap : List Int) (positions : Int → Int) (a b : Nat)
    (ha : a < heap.length) (hb : b < heap.length) (hab : a ≠ b)
    (hp : PosInv heap positions) :
    PosInv (heapSwap heap positions a b).1 (heapSwap heap positions a b).2 := by
  obtain ⟨hinj, hmem, habs⟩ := hp
  have htab : heap.getD a 0 ≠ heap.getD b 0 := fun hh => hab (hinj a b ha hb hh)
  refine ⟨?_, ?_, ?_⟩
  · intro i j hi hj hv
    rw [heapSwap_length] at hi hj
    rw [heapSwap_getD heap positions a b i ha hb,
      heapSwap_getD heap positions a b j ha hb] at hv
    have hσ := hinj _ _ (by split_ifs <;> omega) (by split_ifs <;> omega) hv
    revert hσ
    split_ifs <;> omega
  · intro i hi
    rw [heapSwap_length] at hi
    rw [heapSwap_getD heap positions a b i ha hb, heapSwap_pos]
    by_cases hib : i = b
    · subst hib
      rw [if_pos rfl, if_pos rfl]
    · rw [if_neg hib]
      by_cases hia : i = a
      · subst hia
        rw [if_pos rfl, if_neg htab.symm, if_pos rfl]
      · rw [if_neg hia]
        rw [if_neg (fun hh => hia (hinj i a hi ha hh)),
          if_neg (fun hh => hib (hinj i b hi hb hh))]
        exact hmem i hi
  · intro n hn
    rw [heapSwap_mem heap positions a b ha hb] at hn
    rw [heapSwap_pos]
    rw [if_neg (fun hh => hn (by rw [hh]; exact getD_mem heap a ha)),
      if_neg (fun hh => hn (by rw [hh]; exact getD_mem heap b hb))]
    exact habs n hn

/-- Evaluating the swap transposition from the three case facts. -/
theorem swapIdx_eq (a b k v : Nat)
    (h : (k = b → v = a) ∧ (k ≠ b → k = a → v = b) ∧ (k ≠ b → k ≠ a → v = k)) :
    (if k = b then a else if k = a then b else k) = v := by
  split_ifs with h1 h2
  · exact (h.1 h1).symm
  · exact (h.2.1 h1 h2).symm
  · exact (h.2.2 h1 h2).symm

/-- The unfolding of one upward sift step. -/
theorem bubbleUpGo_succ (scores : Int → Cost) (fuel : Nat) (heap : List Int)
    (positions : Int → Int) (i : Nat) :
    bubbleUpGo scores (fuel + 1) heap positions i =
      if 0 < i then
        if scores (heap.getD ((i - 1) / 2) 0) ≤ scores (heap.getD i 0) then
          (heap, positions)
        else
          bubbleUpGo scores fuel (heapSwap heap positions i ((i - 1) / 2)).1
            (heapSwap heap positions i ((i - 1) / 2)).2 ((i - 1) / 2)
      else (heap, positions) := rfl

/-- The unfolding of one downward sift step. -/
theorem bubbleDownGo_succ (scores : Int → Cost) (fuel : Nat) (heap : List Int)
    (positions : Int → Int) (i : Nat) :
    bubbleDownGo scores (fuel + 1) heap positions i =
      if downTarget scores heap i = i then (heap, positions)
      else
        bubbleDownGo scores fuel
          (heapSwap heap positions i (downTarget scores heap i)).1
          (heapSwap heap positions i (downTarget scores heap i)).2
          (downTarget scores heap i) := rfl

/-- The upward sift restores the full heap invariant from the partial one,
preserving length and membership. -/
theorem bubbleUpGo_spec (scores : Int → Cost) :
    ∀ (fuel : Nat) (heap : List Int) (positions : Int → Int) (i : Nat),
    i < heap.length → i ≤ fuel → PosInv heap positions →
    AlmostUp scores heap i →
    (bubbleUpGo scores fuel heap positions i).1.length = heap.length ∧
    (∀ n : Int, n ∈ (bubbleUpGo scores fuel heap positions i).1 ↔ n ∈ heap) ∧
    HeapInv scores (bubbleUpGo scores fuel heap positions i).1
      (bubbleUpGo scores fuel heap positions i).2 := by
  intro fuel
  induction fuel with
  | zero =>
    intro heap positions i hi hif hp ha
    obtain ⟨ha1, _⟩ := ha
    have hi0 : i = 0 := Nat.le_zero.1 hif
    subst hi0
    exact ⟨rfl, fun n => Iff.rfl, hp, fun j hj hjl => ha1 j hj hjl (by omega)⟩
  | succ fuel ih =>
    intro heap positions i hi hif hp ha
    obtain ⟨ha1, ha2⟩ := ha
    rw [bubbleUpGo_succ]
    by_cases h0 : 0 < i
    · rw [if_pos h0]
      by_cases hstop : scores (heap.getD ((i - 1) / 2) 0) ≤ scores (heap.getD i 0)
      · rw [if_pos hstop]
        refine ⟨rfl, fun n => Iff.rfl, hp, ?_⟩
        intro j hj hjl
        by_cases hji : j = i
        · subst hji
          exact hstop
        · exact ha1 j hj hjl hji
      · rw [if_neg hstop]
        have hparlt : (i - 1) / 2 < i := by omega
        have hpl : (i - 1) / 2 < heap.length := lt_trans hparlt hi
        have hswl := heapSwap_length heap positions i ((i - 1) / 2)
        have hgd := fun k => heapSwap_getD heap positions i ((i - 1) / 2) k hi hpl
        have hlt : scores (heap.getD i 0) < scores (heap.getD ((i - 1) / 2) 0) :=
          not_le.1 hstop
        have hup : AlmostUp scores (heapSwap heap positions i ((i - 1) / 2)).1
            ((i - 1) / 2) := by
          constructor
          · intro j hj hjl hjp
            rw [hswl] at hjl
            rw [hgd j, hgd ((j - 1) / 2)]
            by_cases hji : j = i
            · rw [swapIdx_eq i ((i - 1) / 2) j ((i - 1) / 2) (by omega),
                swapIdx_eq i ((i - 1) / 2) ((j - 1) / 2) i (by omega)]
              exact le_of_lt hlt
            · by_cases hqp : (j - 1) / 2 = i
              · rw [swapIdx_eq i ((i - 1) / 2) j j (by omega),
                  swapIdx_eq i ((i - 1) / 2) ((j - 1) / 2) ((i - 1) / 2) (by omega)]
                exact ha2 j h0 hjl hqp
              · by_cases hqq : (j - 1) / 2 = (i - 1) / 2
                · rw [swapIdx_eq i ((i - 1) / 2) j j (by omega),
                    swapIdx_eq i ((i - 1) / 2) ((j - 1) / 2) i (by omega)]
                  exact le_trans (le_of_lt hlt) (hqq ▸ ha1 j hj hjl hji)
                · rw [swapIdx_eq i ((i - 1) / 2) j j (by omega),
                    swapIdx_eq i ((i - 1) / 2) ((j - 1) / 2) ((j - 1) / 2) (by omega)]
                  exact ha1 j hj hjl hji
          · intro j h0p hjl hjq
            rw [hswl] at hjl
            rw [hgd j, hgd (((i - 1) / 2 - 1) / 2)]
            rw [swapIdx_eq i ((i - 1) / 2) (((i - 1) / 2 - 1) / 2)
              (((i - 1) / 2 - 1) / 2) (by omega)]
            by_cases hji : j = i
            · rw [swapIdx_eq i ((i - 1) / 2) j ((i - 1) / 2) (by omega)]
              exact ha1 _ h0p hpl (by omega)
            · rw [swapIdx_eq i ((i - 1) / 2) j j (by omega)]
              exact le_trans (ha1 _ h0p hpl (by omega))
                (hjq ▸ ha1 j (by omega) hjl hji)
        have hres := ih (heapSwap heap positions i ((i - 1) / 2)).1
          (heapSwap heap positions i ((i - 1) / 2)).2 ((i - 1) / 2)
          (by rw [hswl]; exact hpl) (by omega)
          (heapSwap_posInv heap positions i ((i - 1) / 2) hi hpl (by omega) hp) hup
        refine ⟨hres.1.trans hswl, fun n => (hres.2.1 n).trans
          (heapSwap_mem heap positions i ((i - 1) / 2) hi hpl n), hres.2.2⟩
    · rw [if_neg h0]
      refine ⟨rfl, fun n => Iff.rfl, hp, ?_⟩
      intro j hj hjl
      exact ha1 j hj hjl (by omega)

/-- What the child-selection of the downward sift guarantees: either it
stops (and both children score at least the entry), or it picks a strictly
smaller-scoring child that scores at most both children. -/
theorem downTarget_cases (scores : Int → Cost) (heap : List Int) (i : Nat) :
    (downTarget scores heap i = i ∧
      ∀ j : Nat, j < heap.length → (j - 1) / 2 = i →
        scores (heap.getD i 0) ≤ scores (heap.getD j 0)) ∨
    (i < downTarget scores heap i ∧ downTarget scores heap i < heap.length ∧
      2 * i + 1 ≤ downTarget scores heap i ∧ downTarget scores heap i ≤ 2 * i + 2 ∧
      scores (heap.getD (downTarget scores heap i) 0) < scores (heap.getD i 0) ∧
      ∀ j : Nat, j < heap.length → (j - 1) / 2 = i →
        scores (heap.getD (downTarget scores heap i) 0) ≤ scores (heap.getD j 0)) := by
  unfold downTarget
  dsimp only
  by_cases hl : 2 * i + 1 < heap.length ∧
      scores (heap.getD (2 * i + 1) 0) < scores (heap.getD i 0)
  · rw [if_pos hl]
    by_cases hro : 2 * i + 2 < heap.length ∧
        scores (heap.getD (2 * i + 2) 0) < scores (heap.getD (2 * i + 1) 0)
    · rw [if_pos hro]
      right
      refine ⟨by omega, hro.1, by omega, by omega, lt_trans hro.2 hl.2, ?_⟩
      intro j hj hjp
      have hj12 : j = 2 * i + 1 ∨ j = 2 * i + 2 ∨ (j = 0 ∧ i = 0) := by omega
      rcases hj12 with rfl | rfl | ⟨rfl, rfl⟩
      · exact le_of_lt hro.2
      · exact le_rfl
      · exact le_of_lt (lt_trans hro.2 hl.2)
    · rw [if_neg hro]
      right
      refine ⟨by omega, hl.1, by omega, by omega, hl.2, ?_⟩
      intro j hj hjp
      have hj12 : j = 2 * i + 1 ∨ j = 2 * i + 2 ∨ (j = 0 ∧ i = 0) := by omega
      rcases hj12 with rfl | rfl | ⟨rfl, rfl⟩
      · exact le_rfl
      · exact not_lt.1 (fun hc => hro ⟨hj, hc⟩)
      · exact le_of_lt hl.2
  · rw [if_neg hl]
    by_cases hro : 2 * i + 2 < heap.length ∧
        scores (heap.getD (2 * i + 2) 0) < scores (heap.getD i 0)
    · rw [if_pos hro]
      right
      refine ⟨by omega, hro.1, by omega, by omega, hro.2, ?_⟩
      intro j hj hjp
      have hj12 : j = 2 * i + 1 ∨ j = 2 * i + 2 ∨ (j = 0 ∧ i = 0) := by omega
      rcases hj12 with rfl | rfl | ⟨rfl, rfl⟩
      · have hnl : ¬scores (heap.getD (2 * i + 1) 0) < scores (heap.getD i 0) :=
          fun hc => hl ⟨by omega, hc⟩
        exact le_of_lt (lt_of_lt_of_le hro.2 (not_lt.1 hnl))
      · exact le_rfl
      · exact le_of_lt hro.2
    · rw [if_neg hro]
      left
      refine ⟨rfl, ?_⟩
      intro j hj hjp
      have hj12 : j = 2 * i + 1 ∨ j = 2 * i + 2 ∨ (j = 0 ∧ i = 0) := by omega
      rcases hj12 with rfl | rfl | ⟨rfl, rfl⟩
      · exact not_lt.1 (fun hc => hl ⟨hj, hc⟩)
      · exact not_lt.1 (fun hc => hro ⟨hj, hc⟩)
      · exact le_rfl

/-- The downward sift restores the full heap invariant from the partial one,
preserving length and membership. -/
theorem bubbleDownGo_spec (scores : Int → Cost) :
    ∀ (fuel : Nat) (heap : List Int) (positions : Int → Int) (i : Nat),
    i < heap.length → heap.length ≤ fuel + i → PosInv heap positions →
    AlmostDown scores heap i →
    (bubbleDownGo scores fuel heap positions i).1.length = heap.length ∧
    (∀ n : Int, n ∈ (bubbleDownGo scores fuel heap positions i).1 ↔ n ∈ heap) ∧
    HeapInv scores (bubbleDownGo scores fuel heap positions i).1
      (bubbleDownGo scores fuel heap positions i).2 := by
  intro fuel
  induction fuel with
  | zero =>
    intro heap positions i hi hif hp ha
    omega
  | succ fuel ih =>
    intro heap positions i hi hif hp ha
    obtain ⟨ha1, ha2⟩ := ha
    rw [bubbleDownGo_succ]
    rcases downTarget_cases scores heap i with ⟨hdt, hch⟩ | hpick
    · rw [if_pos hdt]
      refine ⟨rfl, fun n => Iff.rfl, hp, ?_⟩
      intro j hj hjl
      by_cases hpj : (j - 1) / 2 = i
      · rw [hpj]
        exact hch j hjl hpj
      · exact ha1 j hj hjl hpj
    · obtain ⟨hgt, hlt, hlb, hub, hsc, hmin⟩ := hpick
      rw [if_neg (by omega)]
      have hswl := heapSwap_length heap positions i (downTarget scores heap i)
      have hgd := fun k =>
        heapSwap_getD heap positions i (downTarget scores heap i) k hi hlt
      have hdn : AlmostDown scores
          (heapSwap heap positions i (downTarget scores heap i)).1
          (downTarget scores heap i) := by
        constructor
        · intro j hj hjl hqne
          rw [hswl] at hjl
          rw [hgd j, hgd ((j - 1) / 2)]
          by_cases hji : j = i
          · rw [swapIdx_eq i (downTarget scores heap i) j
              (downTarget scores heap i) (by omega),
              swapIdx_eq i (downTarget scores heap i) ((j - 1) / 2)
                ((i - 1) / 2) (by omega)]
            exact ha2 _ (by omega) hlt (by omega)
          · by_cases hjt : j = downTarget scores heap i
            · rw [swapIdx_eq i (downTarget scores heap i) j i (by omega),
                swapIdx_eq i (downTarget scores heap i)
                  ((j - 1) / 2)
                  (downTarget scores heap i) (by omega)]
              exact le_of_lt hsc
            · by_cases hqi : (j - 1) / 2 = i
              · rw [swapIdx_eq i (downTarget scores heap i) j j (by omega),
                  swapIdx_eq i (downTarget scores heap i) ((j - 1) / 2)
                    (downTarget scores heap i) (by omega)]
                exact hmin j hjl hqi
              · rw [swapIdx_eq i (downTarget scores heap i) j j (by omega),
                  swapIdx_eq i (downTarget scores heap i) ((j - 1) / 2)
                    ((j - 1) / 2) (by omega)]
                exact ha1 j hj hjl hqi
        · intro j h0t hjl hjq
          rw [hswl] at hjl
          rw [hgd j, hgd ((downTarget scores heap i - 1) / 2)]
          rw [swapIdx_eq i (downTarget scores heap i) j j (by omega),
            swapIdx_eq i (downTarget scores heap i)
              ((downTarget scores heap i - 1) / 2)
              (downTarget scores heap i) (by omega)]
          exact hjq ▸ ha1 j (by omega) hjl (by omega)
      have hres := ih (heapSwap heap positions i (downTarget scores heap i)).1
        (heapSwap heap positions i (downTarget scores heap i)).2
        (downTarget scores heap i) (by rw [hswl]; exact hlt) (by omega)
        (heapSwap_posInv heap positions i (downTarget scores heap i) hi hlt
          (by omega) hp) hdn
      refine ⟨hres.1.trans hswl, fun n => (hres.2.1 n).trans
        (heapSwap_mem heap positions i (downTarget scores heap i) hi hlt n),
        hres.2.2⟩

/-- In a heap the root entry scores at most every entry. -/
theorem heap_min (scores : Int → Cost) (heap : List Int) (positions : Int → Int)
    (h : HeapInv scores heap positions) :
    ∀ j : Nat, j < heap.length → scores (heap.getD 0 0) ≤ scores (heap.getD j 0) := by
  intro j
  induction j using Nat.strong_induction_on with
  | _ j ih =>
    intro hj
    rcases Nat.eq_zero_or_pos j with rfl | hpos
    · exact le_rfl
    · exact le_trans (ih ((j - 1) / 2) (by omega) (by omega)) (h.2 j hpos hj)

/-- The heap invariant only reads scores at entries. -/
theorem heapInv_congr (scores scores0 : Int → Cost) (heap : List Int)
    (positions : Int → Int) (h : HeapInv scores0 heap positions)
    (hagree : ∀ m ∈ heap, scores m = scores0 m) :
    HeapInv scores heap positions := by
  refine ⟨h.1, ?_⟩
  intro i hi hil
  rw [hagree _ (getD_mem heap _ (by omega)), hagree _ (getD_mem heap i hil)]
  exact h.2 i hi hil

/-- MinHeap.push of an absent node appends it and restores the heap
invariant; membership grows by exactly the node. -/
theorem heapPush_spec (scores : Int → Cost) (heap : List Int)
    (positions : Int → Int) (node : Int) (hinv : HeapInv scores heap positions)
    (hnode : node ∉ heap) :
    (heapPush scores heap positions node).1.length = heap.length + 1 ∧
    (∀ m : Int, m ∈ (heapPush scores heap positions node).1 ↔ m ∈ heap ∨ m = node) ∧
    HeapInv scores (heapPush scores heap positions node).1
      (heapPush scores heap positions node).2 := by
  obtain ⟨⟨hinj, hmem, habs⟩, hheap⟩ := hinv
  have hpn : positions node = -1 := habs node hnode
  have heq : heapPush scores heap positions node =
      bubbleUp scores (heap ++ [node]) (setAt positions node (heap.length : Int))
        ((heap ++ [node]).length - 1) := by
    unfold heapPush
    rw [if_neg (not_not_intro hpn)]
  have hlen1 : (heap ++ [node]).length = heap.length + 1 := by simp
  have hidx : (heap ++ [node]).length - 1 = heap.length := by simp
  rw [heq, hidx]
  unfold bubbleUp
  have hpos1 : PosInv (heap ++ [node]) (setAt positions node (heap.length : Int)) := by
    refine ⟨?_, ?_, ?_⟩
    · intro i j hi hj hv
      rw [hlen1] at hi hj
      by_cases hi' : i = heap.length <;> by_cases hj' : j = heap.length
      · omega
      · subst hi'
        rw [getD_append_len, getD_append_lt heap node j (by omega)] at hv
        exact absurd (by rw [hv]; exact getD_mem heap j (by omega)) hnode
      · subst hj'
        rw [getD_append_len, getD_append_lt heap node i (by omega)] at hv
        exact absurd (by rw [← hv]; exact getD_mem heap i (by omega)) hnode
      · rw [getD_append_lt heap node i (by omega),
          getD_append_lt heap node j (by omega)] at hv
        exact hinj i j (by omega) (by omega) hv
    · intro i hi
      rw [hlen1] at hi
      by_cases hi' : i = heap.length
      · subst hi'
        rw [getD_append_len]
        simp [setAt]
      · rw [getD_append_lt heap node i (by omega)]
        have hm : heap.getD i 0 ∈ heap := getD_mem heap i (by omega)
        have hne : heap.getD i 0 ≠ node := fun hh => hnode (hh ▸ hm)
        simp only [setAt]
        rw [if_neg hne]
        exact hmem i (by omega)
    · intro n hn
      have h1 : n ∉ heap := fun hh => hn (List.mem_append.2 (Or.inl hh))
      have h2 : n ≠ node := fun hh => hn (by simp [hh])
      simp only [setAt]
      rw [if_neg h2]
      exact habs n h1
  have hup : AlmostUp scores (heap ++ [node]) heap.length := by
    constructor
    · intro j hj hjl hjne
      rw [hlen1] at hjl
      rw [getD_append_lt heap node j (by omega),
        getD_append_lt heap node ((j - 1) / 2) (by omega)]
      exact hheap j hj (by omega)
    · intro j h0 hjl hjq
      rw [hlen1] at hjl
      omega
  have hspec := bubbleUpGo_spec scores heap.length (heap ++ [node])
    (setAt positions node (heap.length : Int)) heap.length
    (by rw [hlen1]; omega) le_rfl hpos1 hup
  refine ⟨hspec.1.trans hlen1, fun m => (hspec.2.1 m).trans (by simp), hspec.2.2⟩

/-- MinHeap.update with a key that only decreased at the updated node:
pushes an absent node, sifts a present one up; either way the heap
invariant holds for the new scores and membership grows by the node. -/
theorem heapUpdate_spec (scores scores0 : Int → Cost) (heap : List Int)
    (positions : Int → Int) (node : Int) (hinv : HeapInv scores0 heap positions)
    (hagree : ∀ m ∈ heap, m ≠ node → scores m = scores0 m)
    (hdec : node ∈ heap → scores node ≤ scores0 node) :
    (∀ m : Int, m ∈ (heapUpdate scores heap positions node).1 ↔
      m ∈ heap ∨ m = node) ∧
    HeapInv scores (heapUpdate scores heap positions node).1
      (heapUpdate scores heap positions node).2 := by
  obtain ⟨⟨hinj, hmem, habs⟩, hheap⟩ := hinv
  by_cases hn : node ∈ heap
  · obtain ⟨i, hi, hgd⟩ := (mem_iff_getD heap node).1 hn
    have hpn : positions node = (i : Int) := by
      rw [← hgd]
      exact hmem i hi
    have heq : heapUpdate scores heap positions node =
        bubbleUp scores heap positions ((i : Int)).toNat := by
      show (if positions node = -1 then heapPush scores heap positions node
        else bubbleUp scores heap positions (positions node).toNat) = _
      rw [hpn, if_neg (by omega)]
    have htn : ((i : Int)).toNat = i := Int.toNat_natCast i
    rw [heq, htn]
    unfold bubbleUp
    have hup : AlmostUp scores heap i := by
      constructor
      · intro j hj hjl hjne
        by_cases hpj : (j - 1) / 2 = i
        · have hjm : heap.getD j 0 ∈ heap := getD_mem heap j hjl
          have hjn : heap.getD j 0 ≠ node :=
            fun hh => hjne (hinj j i hjl hi (hh.trans hgd.symm))
          rw [hpj, hgd, hagree _ hjm hjn]
          refine le_trans (hdec hn) ?_
          have hh := hheap j hj hjl
          rw [hpj, hgd] at hh
          exact hh
        · have hpm : heap.getD ((j - 1) / 2) 0 ∈ heap := getD_mem heap _ (by omega)
          have hpn' : heap.getD ((j - 1) / 2) 0 ≠ node :=
            fun hh => hpj (hinj _ i (by omega) hi (hh.trans hgd.symm))
          have hjm : heap.getD j 0 ∈ heap := getD_mem heap j hjl
          have hjn : heap.getD j 0 ≠ node :=
            fun hh => hjne (hinj j i hjl hi (hh.trans hgd.symm))
          rw [hagree _ hpm hpn', hagree _ hjm hjn]
          exact hheap j hj hjl
      · intro j h0i hjl hjq
        have hpm : heap.getD ((i - 1) / 2) 0 ∈ heap := getD_mem heap _ (by omega)
        have hpn' : heap.getD ((i - 1) / 2) 0 ≠ node :=
          fun hh => absurd (hinj _ i (by omega) hi (hh.trans hgd.symm)) (by omega)
        have hjm : heap.getD j 0 ∈ heap := getD_mem heap j hjl
        have hjn : heap.getD j 0 ≠ node :=
          fun hh => absurd (hinj j i hjl hi (hh.trans hgd.symm)) (by omega)
        rw [hagree _ hpm hpn', hagree _ hjm hjn]
        exact le_trans (hheap i h0i hi) (hjq ▸ hheap j (by omega) hjl)
    have hspec := bubbleUpGo_spec scores i heap positions i hi le_rfl
      ⟨hinj, hmem, habs⟩ hup
    refine ⟨fun m => (hspec.2.1 m).trans
      ⟨Or.inl, fun h => h.elim id fun hh => hh.symm ▸ hn⟩, hspec.2.2⟩
  · have hpn : positions node = -1 := habs node hn
    have heq : heapUpdate scores heap positions node =
        heapPush scores heap positions node := by
      show (if positions node = -1 then heapPush scores heap positions node
        else bubbleUp scores heap positions (positions node).toNat) = _
      rw [if_pos hpn]
    rw [heq]
    have hcongr : HeapInv scores heap positions := by
      refine heapInv_congr scores scores0 heap positions ⟨⟨hinj, hmem, habs⟩, hheap⟩ ?_
      intro m hm
      exact hagree m hm (fun hh => hn (hh ▸ hm))
    have hspec := heapPush_spec scores heap positions node hcongr hn
    exact ⟨hspec.2.1, hspec.2.2⟩

/-- In a heap the root entry scores at most every member. -/
theorem heap_min_mem (scores : Int → Cost) (heap : List Int) (positions : Int → Int)
    (h : HeapInv scores heap positions) (m : Int) (hm : m ∈ heap) :
    scores (heap.getD 0 0) ≤ scores m := by
  obtain ⟨i, hi, rfl⟩ := (mem_iff_getD heap m).1 hm
  exact heap_min scores heap positions h i hi

/-- MinHeap.pop on a non-empty heap returns the minimal root, and the new
heap is a heap over exactly the remaining members. -/
theorem heapPop_spec (scores : Int → Cost) (positions : Int → Int)
    (root : Int) (rest : List Int)
    (hinv : HeapInv scores (root :: rest) positions) :
    (heapPop scores (root :: rest) positions).1 = root ∧
    (heapPop scores (root :: rest) positions).2.1.length = rest.length ∧
    (∀ m : Int, m ∈ (heapPop scores (root :: rest) positions).2.1 ↔
      m ∈ root :: rest ∧ m ≠ root) ∧
    HeapInv scores (heapPop scores (root :: rest) positions).2.1
      (heapPop scores (root :: rest) positions).2.2 ∧
    (∀ m ∈ root :: rest, scores root ≤ scores m) := by
  obtain ⟨⟨hinj, hmem, habs⟩, hheap⟩ := hinv
  have hminm : ∀ m ∈ root :: rest, scores root ≤ scores m := by
    intro m hm
    have hr0 : (root :: rest).getD 0 0 = root := List.getD_cons_zero
    have := heap_min_mem scores (root :: rest) positions
      ⟨⟨hinj, hmem, habs⟩, hheap⟩ m hm
    rwa [hr0] at this
  cases rest with
  | nil =>
    refine ⟨rfl, rfl, ?_, ?_, hminm⟩
    · intro m
      constructor
      · intro hm
        exact absurd hm (List.not_mem_nil m)
      · rintro ⟨hm, hne⟩
        exact absurd (List.mem_singleton.1 hm) hne
    · refine ⟨⟨?_, ?_, ?_⟩, ?_⟩
      · intro i j hi hj hv
        simp [heapPop] at hi
      · intro i hi
        simp [heapPop] at hi
      · intro n hn
        show (setAt positions root (-1)) n = -1
        simp only [setAt]
        by_cases hr : n = root
        · rw [if_pos hr]
        · rw [if_neg hr]
          exact habs n (by simp [hr])
      · intro i h0 hil
        simp [heapPop] at hil
  | cons second rest2 =>
    have hroot0 : (root :: second :: rest2).getD 0 0 = root := List.getD_cons_zero
    have hlen : (root :: second :: rest2).length = rest2.length + 2 := by simp
    have hlast : (root :: second :: rest2).getD (rest2.length + 1) 0 =
        (second :: rest2).getLast (by simp) := by
      rw [List.getD_cons_succ, getD_eq_getElem _ _ (by simp)]
      exact (List.getLast_eq_getElem _ _).symm
    have hL : ((second :: rest2).getLast (by simp) :: (second :: rest2).dropLast).length
        = rest2.length + 1 := by simp
    have hview0 : ((second :: rest2).getLast (by simp) ::
          (second :: rest2).dropLast).getD 0 0 =
        (root :: second :: rest2).getD (rest2.length + 1) 0 := by
      rw [List.getD_cons_zero, hlast]
    have hviewmid : ∀ j : Nat, 1 ≤ j → j ≤ rest2.length →
        ((second :: rest2).getLast (by simp) ::
          (second :: rest2).dropLast).getD j 0 =
        (root :: second :: rest2).getD j 0 := by
      intro j h1 h2
      obtain ⟨j', rfl⟩ : ∃ j', j = j' + 1 := ⟨j - 1, by omega⟩
      rw [List.getD_cons_succ, List.getD_cons_succ]
      have hb : j' < (second :: rest2).length - 1 := by
        simp only [List.length_cons]
        omega
      have he : ((second :: rest2).dropLast)[j']? = (second :: rest2)[j']? := by
        rw [List.getElem?_dropLast, if_pos hb]
      rw [List.getD_eq_getElem?_getD, List.getD_eq_getElem?_getD, he]
    have hrl : root ≠ (second :: rest2).getLast (by simp) := by
      intro hh
      have h0 := hinj 0 (rest2.length + 1) (by simp)
        (by simp only [List.length_cons]; omega)
        (by rw [hroot0, hlast]; exact hh)
      omega
    have hlastmem : (second :: rest2).getLast (by simp) ∈
        ((second :: rest2).getLast (by simp) :: (second :: rest2).dropLast) :=
      List.mem_cons_self _ _
    have hpos1 : ∀ n : Int,
        (setAt (setAt positions root (-1)) ((second :: rest2).getLast (by simp)) 0) n =
          if n = (second :: rest2).getLast (by simp) then 0
          else if n = root then -1 else positions n := fun n => rfl
    have hmemnew : ∀ m : Int,
        m ∈ ((second :: rest2).getLast (by simp) :: (second :: rest2).dropLast) ↔
        (m ∈ root :: second :: rest2 ∧ m ≠ root) := by
      intro m
      rw [mem_iff_getD, mem_iff_getD]
      constructor
      · rintro ⟨k, hk, rfl⟩
        rw [hL] at hk
        by_cases hk0 : k = 0
        · subst hk0
          rw [hview0]
          refine ⟨⟨rest2.length + 1, by simp only [List.length_cons]; omega, rfl⟩, ?_⟩
          intro hh
          have h0 := hinj (rest2.length + 1) 0
            (by simp only [List.length_cons]; omega) (by simp)
            (by rw [hroot0]; exact hh)
          omega
        · rw [hviewmid k (by omega) (by omega)]
          refine ⟨⟨k, by simp only [List.length_cons]; omega, rfl⟩, ?_⟩
          intro hh
          have h0 := hinj k 0 (by simp only [List.length_cons]; omega) (by simp)
            (by rw [hroot0]; exact hh)
          omega
      · rintro ⟨⟨k, hk, rfl⟩, hne⟩
        rw [hlen] at hk
        have hk0 : k ≠ 0 := fun hh => hne (by rw [hh]; exact hroot0)
        by_cases hkl : k = rest2.length + 1
        · refine ⟨0, by rw [hL]; omega, ?_⟩
          rw [hview0, hkl]
        · refine ⟨k, by rw [hL]; omega, ?_⟩
          exact hviewmid k (by omega) (by omega)
    have hposinv : PosInv
        ((second :: rest2).getLast (by simp) :: (second :: rest2).dropLast)
        (setAt (setAt positions root (-1)) ((second :: rest2).getLast (by simp)) 0) := by
      refine ⟨?_, ?_, ?_⟩
      · intro i j hi hj hv
        rw [hL] at hi hj
        by_cases hi0 : i = 0 <;> by_cases hj0 : j = 0
        · omega
        · subst hi0
          rw [hview0, hviewmid j (by omega) (by omega)] at hv
          have h0 := hinj (rest2.length + 1) j
            (by simp only [List.length_cons]; omega)
            (by simp only [List.length_cons]; omega) hv
          omega
        · subst hj0
          rw [hview0, hviewmid i (by omega) (by omega)] at hv
          have h0 := hinj i (rest2.length + 1)
            (by simp only [List.length_cons]; omega)
            (by simp only [List.length_cons]; omega) hv
          omega
        · rw [hviewmid i (by omega) (by omega),
            hviewmid j (by omega) (by omega)] at hv
          exact hinj i j (by simp only [List.length_cons]; omega)
            (by simp only [List.length_cons]; omega) hv
      · intro i hi
        rw [hL] at hi
        by_cases hi0 : i = 0
        · subst hi0
          rw [hview0, hlast, hpos1, if_pos rfl]
          simp
        · rw [hviewmid i (by omega) (by omega), hpos1]
          have hne1 : (root :: second :: rest2).getD i 0 ≠
              (second :: rest2).getLast (by simp) := by
            intro hh
            rw [← hlast] at hh
            have h0 := hinj i (rest2.length + 1)
              (by simp only [List.length_cons]; omega)
              (by simp only [List.length_cons]; omega) hh
            omega
          have hne2 : (root :: second :: rest2).getD i 0 ≠ root := by
            intro hh
            rw [← hroot0] at hh
            have h0 := hinj i 0 (by simp only [List.length_cons]; omega)
              (by simp) hh
            omega
          rw [if_neg hne1, if_neg hne2]
          exact hmem i (by simp only [List.length_cons]; omega)
      · intro n hn
        rw [hpos1]
        have hnl : n ≠ (second :: rest2).getLast (by simp) :=
          fun hh => hn (by rw [hh]; exact hlastmem)
        rw [if_neg hnl]
        by_cases hnr : n = root
        · rw [if_pos hnr]
        · rw [if_neg hnr]
          refine habs n ?_
          intro hmemold
          obtain ⟨k, hk, hkv⟩ := (mem_iff_getD _ n).1 hmemold
          rw [hlen] at hk
          have hk0 : k ≠ 0 := fun hh => hnr (by rw [← hkv, hh]; exact hroot0)
          by_cases hkl : k = rest2.length + 1
          · exact hnl (by rw [← hkv, hkl]; exact hlast)
          · refine hn ((mem_iff_getD _ n).2 ⟨k, by rw [hL]; omega, ?_⟩)
            rw [hviewmid k (by omega) (by omega)]
            exact hkv
    have hdown : AlmostDown scores
        ((second :: rest2).getLast (by simp) :: (second :: rest2).dropLast) 0 := by
      constructor
      · intro j hj hjl hq
        rw [hL] at hjl
        rw [hviewmid j (by omega) (by omega),
          hviewmid ((j - 1) / 2) (by omega) (by omega)]
        exact hheap j hj (by simp only [List.length_cons]; omega)
      · intro j h0 hjl hjq
        exact absurd h0 (lt_irrefl 0)
    have hpop : heapPop scores (root :: second :: rest2) positions =
        (root, bubbleDown scores
          ((second :: rest2).getLast (by simp) :: (second :: rest2).dropLast)
          (setAt (setAt positions root (-1)) ((second :: rest2).getLast (by simp)) 0)
          0) := rfl
    rw [hpop]
    unfold bubbleDown
    have hspec := bubbleDownGo_spec scores
      (((second :: rest2).getLast (by simp) :: (second :: rest2).dropLast).length + 1)
      ((second :: rest2).getLast (by simp) :: (second :: rest2).dropLast)
      (setAt (setAt positions root (-1)) ((second :: rest2).getLast (by simp)) 0)
      0 (by simp) (by omega) hposinv hdown
    refine ⟨rfl, ?_, fun m => (hspec.2.1 m).trans (hmemnew m), hspec.2.2, hminm⟩
    rw [hspec.1, hL]
    simp

/-!
Octile heuristic arithmetic and the geometry of the neighbour moves.
-/

/-- The heuristic is the octile form on the absolute differences. -/
theorem heuristic_eq_octileC (x0 y0 x1 y1 : Int) :
    heuristic x0 y0 x1 y1 = octileC |x0 - x1| |y0 - y1| := rfl

/-- The octile form is symmetric. -/
theorem octileC_comm (X Y : Int) : octileC X Y = octileC Y X := by
  unfold octileC
  rw [min_comm, add_comm X Y]

/-- The octile value grows by at most 1 when one difference grows by at
most 1. -/
theorem octileC_axis (X Y X' : Int) (hX : 0 ≤ X) (hY : 0 ≤ Y) (hX' : 0 ≤ X')
    (h : X ≤ X' + 1) : octileC X Y ≤ 1 + octileC X' Y := by
  have hS1 : (1 : Cost) ≤ SQRT2 := by decide
  have hS2 : SQRT2 ≤ 2 := by decide
  have hc : ((X : Int) : Cost) ≤ ((X' : Int) : Cost) + 1 := by exact_mod_cast h
  unfold octileC
  rcases le_total X Y with hxy | hxy <;> rcases le_total X' Y with hx'y | hx'y
  · rw [min_eq_left hxy, min_eq_left hx'y]
    have hkey : (SQRT2 - 1) * ((X : Int) : Cost) ≤
        (SQRT2 - 1) * (((X' : Int) : Cost) + 1) :=
      mul_le_mul_of_nonneg_left hc (by linarith)
    push_cast
    push_cast at hkey
    nlinarith [hkey]
  · rw [min_eq_left hxy, min_eq_right hx'y]
    have hxyc : ((X : Int) : Cost) ≤ ((Y : Int) : Cost) := by exact_mod_cast hxy
    have hyxc : ((Y : Int) : Cost) ≤ ((X' : Int) : Cost) := by exact_mod_cast hx'y
    have hkey : (SQRT2 - 1) * ((X : Int) : Cost) ≤
        (SQRT2 - 1) * ((Y : Int) : Cost) :=
      mul_le_mul_of_nonneg_left hxyc (by linarith)
    push_cast
    push_cast at hkey hxyc hyxc
    nlinarith [hkey, hyxc]
  · rw [min_eq_right hxy, min_eq_left hx'y]
    have hyxc : ((X' : Int) : Cost) ≤ ((Y : Int) : Cost) := by exact_mod_cast hx'y
    have hkey : (SQRT2 - 2) * ((Y : Int) : Cost) ≤
        (SQRT2 - 2) * ((X' : Int) : Cost) :=
      mul_le_mul_of_nonpos_left hyxc (by linarith)
    push_cast
    push_cast at hkey hc
    nlinarith [hkey, hc]
  · rw [min_eq_right hxy, min_eq_right hx'y]
    push_cast
    push_cast at hc
    nlinarith [hc]

/-- The octile value grows by at most √2 when both differences grow by at
most 1. -/
theorem octileC_diag (X Y X' Y' : Int) (hX : 0 ≤ X) (hY : 0 ≤ Y) (hX' : 0 ≤ X')
    (hY' : 0 ≤ Y') (hx : X ≤ X' + 1) (hy : Y ≤ Y' + 1) :
    octileC X Y ≤ SQRT2 + octileC X' Y' := by
  have hS1 : (1 : Cost) ≤ SQRT2 := by decide
  have hS2 : SQRT2 ≤ 2 := by decide
  have hxc : ((X : Int) : Cost) ≤ ((X' : Int) : Cost) + 1 := by exact_mod_cast hx
  have hyc : ((Y : Int) : Cost) ≤ ((Y' : Int) : Cost) + 1 := by exact_mod_cast hy
  unfold octileC
  rcases le_total X Y with hxy | hxy <;> rcases le_total X' Y' with hx'y | hx'y
  · rw [min_eq_left hxy, min_eq_left hx'y]
    have hkey : (SQRT2 - 1) * ((X : Int) : Cost) ≤
        (SQRT2 - 1) * (((X' : Int) : Cost) + 1) :=
      mul_le_mul_of_nonneg_left hxc (by linarith)
    push_cast
    push_cast at hkey hyc
    nlinarith [hkey, hyc]
  · rw [min_eq_left hxy, min_eq_right hx'y]
    have hxyc : X ≤ Y' + 1 := by omega
    have hxyc' : ((X : Int) : Cost) ≤ ((Y' : Int) : Cost) + 1 := by exact_mod_cast hxyc
    have hyxc : Y ≤ X' + 1 := by omega
    have hyxc' : ((Y : Int) : Cost) ≤ ((X' : Int) : Cost) + 1 := by exact_mod_cast hyxc
    have hkey : (SQRT2 - 1) * ((X : Int) : Cost) ≤
        (SQRT2 - 1) * (((Y' : Int) : Cost) + 1) :=
      mul_le_mul_of_nonneg_left hxyc' (by linarith)
    push_cast
    push_cast at hkey hyxc'
    nlinarith [hkey, hyxc']
  · rw [min_eq_right hxy, min_eq_left hx'y]
    have hx'yc : ((X' : Int) : Cost) ≤ ((Y' : Int) : Cost) := by exact_mod_cast hx'y
    have hkey : (SQRT2 - 1) * ((Y : Int) : Cost) ≤
        (SQRT2 - 1) * (((Y' : Int) : Cost) + 1) :=
      mul_le_mul_of_nonneg_left hyc (by linarith)
    have hkey2 : (SQRT2 - 2) * ((Y' : Int) : Cost) ≤
        (SQRT2 - 2) * ((X' : Int) : Cost) :=
      mul_le_mul_of_nonpos_left hx'yc (by linarith)
    push_cast
    push_cast at hkey hkey2 hxc
    nlinarith [hkey, hkey2, hxc]
  · rw [min_eq_right hxy, min_eq_right hx'y]
    have hkey : (SQRT2 - 1) * ((Y : Int) : Cost) ≤
        (SQRT2 - 1) * (((Y' : Int) : Cost) + 1) :=
      mul_le_mul_of_nonneg_left hyc (by linarith)
    push_cast
    push_cast at hkey hxc
    nlinarith [hkey, hxc]

/-- Shifting the first argument changes an absolute difference by at most
the shift. -/
theorem abs_sub_shift (a b d : Int) : |a - b| ≤ |a + d - b| + |d| := by
  have h : a - b = (a + d - b) + (-d) := by ring
  rw [h]
  exact (abs_add _ _).trans (by rw [abs_neg])

/-- Octile consistency along every neighbour offset: one step changes the
heuristic by at most the step's cost. -/
theorem heuristic_consistent (ad : Bool) (d : Int × Int × Cost)
    (hd : d ∈ neighborsFor ad) (x y gx gy : Int) :
    heuristic x y gx gy ≤ d.2.2 + heuristic (x + d.1) (y + d.2.1) gx gy := by
  have key : ∀ a b dd : Int, |dd| ≤ 1 → |a - b| ≤ |a + dd - b| + 1 := by
    intro a b dd hdd
    calc |a - b| ≤ |a + dd - b| + |dd| := abs_sub_shift a b dd
      _ ≤ |a + dd - b| + 1 := by omega
  have hax : ∀ dd : Int, |dd| ≤ 1 →
      heuristic x y gx gy ≤ 1 + heuristic (x + dd) y gx gy := by
    intro dd hdd
    rw [heuristic_eq_octileC, heuristic_eq_octileC]
    exact octileC_axis _ _ _ (abs_nonneg _) (abs_nonneg _) (abs_nonneg _)
      (key x gx dd hdd)
  have hay : ∀ dd : Int, |dd| ≤ 1 →
      heuristic x y gx gy ≤ 1 + heuristic x (y + dd) gx gy := by
    intro dd hdd
    rw [heuristic_eq_octileC, heuristic_eq_octileC,
      octileC_comm |x - gx| |y - gy|, octileC_comm |x - gx| |y + dd - gy|]
    exact octileC_axis _ _ _ (abs_nonneg _) (abs_nonneg _) (abs_nonneg _)
      (key y gy dd hdd)
  have hdg : ∀ dx dy : Int, |dx| ≤ 1 → |dy| ≤ 1 →
      heuristic x y gx gy ≤ SQRT2 + heuristic (x + dx) (y + dy) gx gy := by
    intro dx dy hdx hdy
    rw [heuristic_eq_octileC, heuristic_eq_octileC]
    exact octileC_diag _ _ _ _ (abs_nonneg _) (abs_nonneg _) (abs_nonneg _)
      (abs_nonneg _) (key x gx dx hdx) (key y gy dy hdy)
  cases ad <;> simp only [neighborsFor, if_true, if_false, Bool.false_eq_true,
    List.mem_cons, List.not_mem_nil, or_false] at hd
  · rcases hd with rfl | rfl | rfl | rfl
    · simpa using hax 1 (by decide)
    · simpa using hax (-1) (by decide)
    · simpa using hay 1 (by decide)
    · simpa using hay (-1) (by decide)
  · rcases hd with rfl | rfl | rfl | rfl | rfl | rfl | rfl | rfl
    · simpa using hax 1 (by decide)
    · simpa using hax (-1) (by decide)
    · simpa using hay 1 (by decide)
    · simpa using hay (-1) (by decide)
    · simpa using hdg 1 1 (by decide) (by decide)
    · simpa using hdg (-1) 1 (by decide) (by decide)
    · simpa using hdg 1 (-1) (by decide) (by decide)
    · simpa using hdg (-1) (-1) (by decide) (by decide)

/-- Each neighbour offset's table cost is the spec-side step cost of the
move it encodes. -/
theorem stepCost_offset (ad : Bool) (d : Int × Int × Cost)
    (hd : d ∈ neighborsFor ad) (x y : Int) :
    stepCost ⟨x, y⟩ ⟨x + d.1, y + d.2.1⟩ = d.2.2 := by
  cases ad <;> simp only [neighborsFor, if_true, if_false, Bool.false_eq_true,
    List.mem_cons, List.not_mem_nil, or_false] at hd
  · rcases hd with rfl | rfl | rfl | rfl <;>
      (simp only [stepCost]
       split_ifs with hc
       · exact absurd hc (by omega)
       · rfl)
  · rcases hd with rfl | rfl | rfl | rfl | rfl | rfl | rfl | rfl
    · simp only [stepCost]
      split_ifs with hc
      · exact absurd hc (by omega)
      · rfl
    · simp only [stepCost]
      split_ifs with hc
      · exact absurd hc (by omega)
      · rfl
    · simp only [stepCost]
      split_ifs with hc
      · exact absurd hc (by omega)
      · rfl
    · simp only [stepCost]
      split_ifs with hc
      · exact absurd hc (by omega)
      · rfl
    · simp only [stepCost]
      split_ifs with hc
      · rfl
      · exact absurd ⟨by omega, by omega⟩ hc
    · simp only [stepCost]
      split_ifs with hc
      · rfl
      · exact absurd ⟨by omega, by omega⟩ hc
    · simp only [stepCost]
      split_ifs with hc
      · rfl
      · exact absurd ⟨by omega, by omega⟩ hc
    · simp only [stepCost]
      split_ifs with hc
      · rfl
      · exact absurd ⟨by omega, by omega⟩ hc

/-- Every neighbour offset's cost is positive. -/
theorem neighbors_cost_pos (ad : Bool) (d : Int × Int × Cost)
    (hd : d ∈ neighborsFor ad) : 0 < d.2.2 := by
  cases ad <;> simp only [neighborsFor, if_true, if_false, Bool.false_eq_true,
    List.mem_cons, List.not_mem_nil, or_false] at hd
  · rcases hd with rfl | rfl | rfl | rfl <;> decide
  · rcases hd with rfl | rfl | rfl | rfl | rfl | rfl | rfl | rfl <;> decide

/-- The spec-side step cost is positive. -/
theorem stepCost_pos (a b : GridPoint) : 0 < stepCost a b := by
  unfold stepCost
  split_ifs
  · decide
  · decide

/-- Path costs are nonnegative. -/
theorem pathCost_nonneg (p : List GridPoint) : 0 ≤ pathCost p := by
  induction p with
  | nil => exact le_refl 0
  | cons a rest ih =>
    cases rest with
    | nil => exact le_refl 0
    | cons b rest2 =>
      show (0 : Cost) ≤ stepCost a b + pathCost (b :: rest2)
      exact add_nonneg (le_of_lt (stepCost_pos a b)) ih

/-- Appending one point adds its step cost. -/
theorem pathCost_append_last (p : List GridPoint) (a b : GridPoint)
    (h : p.getLast? = some a) :
    pathCost (p ++ [b]) = pathCost p + stepCost a b := by
  induction p with
  | nil => simp at h
  | cons c rest ih =>
    cases rest with
    | nil =>
      have hca : c = a := by simpa using h
      subst hca
      show stepCost c b + pathCost [b] = pathCost [c] + stepCost c b
      show stepCost c b + 0 = 0 + stepCost c b
      ring
    | cons e rest2 =>
      have hlast : (e :: rest2).getLast? = some a := by
        rw [← h]
        rfl
      show stepCost c e + pathCost ((e :: rest2) ++ [b]) =
        stepCost c e + pathCost (e :: rest2) + stepCost a b
      rw [ih hlast]
      ring

/-- Every offset move lands on an adjacent cell of the selected
connectivity. -/
theorem offset_adjacent_helper (ad : Bool) (a : GridPoint) (dx dy : Int)
    (hdx : |dx| ≤ 1) (hdy : |dy| ≤ 1) (hne : ¬(dx = 0 ∧ dy = 0))
    (hcon : ad = true ∨ dx = 0 ∨ dy = 0) :
    adjacentStep ad a ⟨a.x + dx, a.y + dy⟩ := by
  refine ⟨?_, ?_, ?_, ?_⟩
  · show |a.x + dx - a.x| ≤ 1
    rw [show a.x + dx - a.x = dx from by ring]
    exact hdx
  · show |a.y + dy - a.y| ≤ 1
    rw [show a.y + dy - a.y = dy from by ring]
    exact hdy
  · show ¬(a.x + dx = a.x ∧ a.y + dy = a.y)
    intro hh
    exact hne ⟨by omega, by omega⟩
  · show ad = true ∨ a.x + dx = a.x ∨ a.y + dy = a.y
    rcases hcon with h | h | h
    · exact Or.inl h
    · exact Or.inr (Or.inl (by omega))
    · exact Or.inr (Or.inr (by omega))

/-- Every offset move lands on an adjacent cell of the selected
connectivity. -/
theorem offset_adjacentStep (ad : Bool) (d : Int × Int × Cost)
    (hd : d ∈ neighborsFor ad) (a : GridPoint) :
    adjacentStep ad a ⟨a.x + d.1, a.y + d.2.1⟩ := by
  cases ad <;> simp only [neighborsFor, if_true, if_false, Bool.false_eq_true,
    List.mem_cons, List.not_mem_nil, or_false] at hd
  · rcases hd with rfl | rfl | rfl | rfl <;>
      exact offset_adjacent_helper _ a _ _ (by decide) (by decide) (by decide)
        (by decide)
  · rcases hd with rfl | rfl | rfl | rfl | rfl | rfl | rfl | rfl <;>
      exact offset_adjacent_helper _ a _ _ (by decide) (by decide) (by decide)
        (by decide)

/-- Every adjacent move is one of the neighbour offsets. -/
theorem adjacentStep_offset (ad : Bool) (a b : GridPoint)
    (h : adjacentStep ad a b) :
    ∃ d ∈ neighborsFor ad, b.x = a.x + d.1 ∧ b.y = a.y + d.2.1 := by
  obtain ⟨h1, h2, h3, h4⟩ := h
  rw [abs_le] at h1 h2
  cases ad
  · rcases h4 with hff | hx | hy
    · exact absurd hff (by simp)
    · have hy1 : b.y = a.y + 1 ∨ b.y = a.y - 1 := by omega
      rcases hy1 with h' | h'
      · exact ⟨(0, 1, 1), by simp [neighborsFor], by show b.x = a.x + 0; omega,
          by show b.y = a.y + 1; omega⟩
      · exact ⟨(0, -1, 1), by simp [neighborsFor], by show b.x = a.x + 0; omega,
          by show b.y = a.y + -1; omega⟩
    · have hx1 : b.x = a.x + 1 ∨ b.x = a.x - 1 := by omega
      rcases hx1 with h' | h'
      · exact ⟨(1, 0, 1), by simp [neighborsFor], by show b.x = a.x + 1; omega,
          by show b.y = a.y + 0; omega⟩
      · exact ⟨(-1, 0, 1), by simp [neighborsFor], by show b.x = a.x + -1; omega,
          by show b.y = a.y + 0; omega⟩
  · have hcases : (b.x = a.x + 1 ∧ b.y = a.y) ∨ (b.x = a.x - 1 ∧ b.y = a.y) ∨
        (b.x = a.x ∧ b.y = a.y + 1) ∨ (b.x = a.x ∧ b.y = a.y - 1) ∨
        (b.x = a.x + 1 ∧ b.y = a.y + 1) ∨ (b.x = a.x - 1 ∧ b.y = a.y + 1) ∨
        (b.x = a.x + 1 ∧ b.y = a.y - 1) ∨ (b.x = a.x - 1 ∧ b.y = a.y - 1) := by
      omega
    rcases hcases with ⟨hx, hy⟩ | ⟨hx, hy⟩ | ⟨hx, hy⟩ | ⟨hx, hy⟩ | ⟨hx, hy⟩ |
      ⟨hx, hy⟩ | ⟨hx, hy⟩ | ⟨hx, hy⟩
    · exact ⟨(1, 0, 1), by simp [neighborsFor], by show b.x = a.x + 1; omega,
        by show b.y = a.y + 0; omega⟩
    · exact ⟨(-1, 0, 1), by simp [neighborsFor], by show b.x = a.x + -1; omega,
        by show b.y = a.y + 0; omega⟩
    · exact ⟨(0, 1, 1), by simp [neighborsFor], by show b.x = a.x + 0; omega,
        by show b.y = a.y + 1; omega⟩
    · exact ⟨(0, -1, 1), by simp [neighborsFor], by show b.x = a.x + 0; omega,
        by show b.y = a.y + -1; omega⟩
    · exact ⟨(1, 1, SQRT2), by simp [neighborsFor], by show b.x = a.x + 1; omega,
        by show b.y = a.y + 1; omega⟩
    · exact ⟨(-1, 1, SQRT2), by simp [neighborsFor], by show b.x = a.x + -1; omega,
        by show b.y = a.y + 1; omega⟩
    · exact ⟨(1, -1, SQRT2), by simp [neighborsFor], by show b.x = a.x + 1; omega,
        by show b.y = a.y + -1; omega⟩
    · exact ⟨(-1, -1, SQRT2), by simp [neighborsFor], by show b.x = a.x + -1; omega,
        by show b.y = a.y + -1; omega⟩

/-!
Index/cell correspondence.
-/

/-- The row-major index of an in-bounds cell is below width·height. -/
theorem getIndex_lt_total (world : WorldData) (x y : Int)
    (h : inBounds world x y) :
    getIndex world.width x y < ((world.width * world.height : Nat) : Int) := by
  obtain ⟨hx0, hy0, hxw, hyh⟩ := h
  have hcast : ((world.width * world.height : Nat) : Int) =
      (world.width : Int) * (world.height : Int) := by push_cast; ring
  rw [hcast]
  unfold getIndex
  nlinarith [mul_le_mul_of_nonneg_right (show y + 1 ≤ (world.height : Int) by omega)
    (show (0 : Int) ≤ (world.width : Int) by positivity)]

/-- An in-range index decodes to an in-bounds cell. -/
theorem inBounds_idxPoint (world : WorldData) (n : Int)
    (h0 : 0 ≤ n) (hn : n < ((world.width * world.height : Nat) : Int)) :
    inBounds world (n % (world.width : Int)) (n / (world.width : Int)) := by
  have hw : 0 < world.width := by
    by_contra hw
    have hw0 : world.width = 0 := by omega
    rw [hw0] at hn
    simp at hn
    omega
  have hwz : (0 : Int) < (world.width : Int) := by exact_mod_cast hw
  refine ⟨Int.emod_nonneg n (by omega), Int.ediv_nonneg h0 (by omega),
    Int.emod_lt_of_pos n hwz, ?_⟩
  rw [Int.ediv_lt_iff_lt_mul hwz]
  calc n < ((world.width * world.height : Nat) : Int) := hn
    _ = (world.height : Int) * (world.width : Int) := by push_cast; ring

/-- Re-encoding a decoded index gives it back. -/
theorem getIndex_idxPoint (world : WorldData) (n : Int) :
    getIndex world.width (n % (world.width : Int)) (n / (world.width : Int)) = n := by
  unfold getIndex
  rw [Int.emod_add_ediv']

/-- Decoding the index of an in-bounds cell gives back the cell. -/
theorem idxPoint_getIndex (world : WorldData) (x y : Int) (h : inBounds world x y) :
    idxPoint world.width (getIndex world.width x y) = ⟨x, y⟩ := by
  obtain ⟨hx0, hy0, hxw, hyh⟩ := h
  unfold idxPoint
  rw [getIndex_emod world.width x y hx0 hxw, getIndex_ediv world.width x y hx0 hxw]

/-- Every point after the first of a step chain is passable. -/
theorem chain_tail_passable (world : WorldData) (revealed : Int → Nat)
    (options : PathOptions) :
    ∀ p : List GridPoint, List.Chain' (stepOk world revealed options) p →
    ∀ q ∈ p.tail, isCellPassable world revealed q.x q.y options := by
  intro p
  induction p with
  | nil =>
    intro _ q hq
    simp at hq
  | cons a rest ih =>
    intro hchain q hq
    cases rest with
    | nil => simp at hq
    | cons b rest2 =>
      rw [List.chain'_cons] at hchain
      rcases List.mem_cons.1 hq with rfl | hq2
      · exact hchain.1.2.1
      · exact ih hchain.2 q hq2

/-!
Preservation of the loop invariant through the neighbour relaxation.
-/

/-- expandNeighbor with its let-bindings expanded. -/
theorem expandNeighbor_eq (world : WorldData) (revealed : Int → Nat)
    (goal : GridPoint) (options : PathOptions) (current : Int) (st : SearchState)
    (nbr : Int × Int × Cost) :
    expandNeighbor world revealed goal options current st nbr =
      if ¬inBounds world (current % (world.width : Int) + nbr.1)
          (current / (world.width : Int) + nbr.2.1) then st
      else if st.closed (getIndex world.width (current % (world.width : Int) + nbr.1)
          (current / (world.width : Int) + nbr.2.1)) = 1 then st
      else if ¬isCellPassable world revealed
          (current % (world.width : Int) + nbr.1)
          (current / (world.width : Int) + nbr.2.1) options then st
      else if options.maxSlope <
          |getHeight world (current % (world.width : Int))
              (current / (world.width : Int)) -
            getHeight world (current % (world.width : Int) + nbr.1)
              (current / (world.width : Int) + nbr.2.1)| then st
      else if st.gScore current + nbr.2.2 <
          st.gScore (getIndex world.width (current % (world.width : Int) + nbr.1)
            (current / (world.width : Int) + nbr.2.1)) then
        { st with
          cameFrom := setAt st.cameFrom
            (getIndex world.width (current % (world.width : Int) + nbr.1)
              (current / (world.width : Int) + nbr.2.1)) current
          gScore := setAt st.gScore
            (getIndex world.width (current % (world.width : Int) + nbr.1)
              (current / (world.width : Int) + nbr.2.1))
            (st.gScore current + nbr.2.2)
          fScore := setAt st.fScore
            (getIndex world.width (current % (world.width : Int) + nbr.1)
              (current / (world.width : Int) + nbr.2.1))
            (st.gScore current + nbr.2.2 +
              heuristic (current % (world.width : Int) + nbr.1)
                (current / (world.width : Int) + nbr.2.1) goal.x goal.y)
          heap := (heapUpdate
            (setAt st.fScore
              (getIndex world.width (current % (world.width : Int) + nbr.1)
                (current / (world.width : Int) + nbr.2.1))
              (st.gScore current + nbr.2.2 +
                heuristic (current % (world.width : Int) + nbr.1)
                  (current / (world.width : Int) + nbr.2.1) goal.x goal.y))
            st.heap st.positions
            (getIndex world.width (current % (world.width : Int) + nbr.1)
              (current / (world.width : Int) + nbr.2.1))).1
          positions := (heapUpdate
            (setAt st.fScore
              (getIndex world.width (current % (world.width : Int) + nbr.1)
                (current / (world.width : Int) + nbr.2.1))
              (st.gScore current + nbr.2.2 +
                heuristic (current % (world.width : Int) + nbr.1)
                  (current / (world.width : Int) + nbr.2.1) goal.x goal.y))
            st.heap st.positions
            (getIndex world.width (current % (world.width : Int) + nbr.1)
              (current / (world.width : Int) + nbr.2.1))).2 }
      else st := rfl

/-- The relaxation guarantee survives any state change that keeps the
closed set, does not increase any g-score and keeps g at the source. -/
theorem edgeRelaxed_mono (world : WorldData) (revealed : Int → Nat)
    (options : PathOptions) (st st' : SearchState) (u : Int)
    (d : Int × Int × Cost) (hcl : st'.closed = st.closed)
    (hdec : ∀ n : Int, st'.gScore n ≤ st.gScore n)
    (hclg : st'.gScore u = st.gScore u)
    (h : EdgeRelaxed world revealed options st u d) :
    EdgeRelaxed world revealed options st' u d := by
  intro h1 h2 h3 h4
  rw [hcl] at h2
  rw [hclg]
  exact le_trans (hdec _) (h h1 h2 h3 h4)

/-- One neighbour relaxation preserves the core invariant, never increases
g-scores, never touches closed cells' g-scores or the closed set, and
establishes the processed offset's relaxation guarantee. -/
theorem expand_step (world : WorldData) (revealed : Int → Nat)
    (options : PathOptions) (start goal : GridPoint) (current : Int)
    (st : SearchState)
    (hcore : CoreInv world revealed options start goal st)
    (hclosed : st.closed current = 1)
    (d : Int × Int × Cost) (hd : d ∈ neighborsFor options.allowDiagonal) :
    CoreInv world revealed options start goal
      (expandNeighbor world revealed goal options current st d) ∧
    (expandNeighbor world revealed goal options current st d).closed = st.closed ∧
    (∀ n : Int, (expandNeighbor world revealed goal options current st d).gScore n ≤
      st.gScore n) ∧
    (∀ n : Int, st.closed n = 1 →
      (expandNeighbor world revealed goal options current st d).gScore n =
        st.gScore n) ∧
    EdgeRelaxed world revealed options
      (expandNeighbor world revealed goal options current st d) current d := by
  have hcrange : 0 ≤ current ∧ current < ((world.width * world.height : Nat) : Int) :=
    hcore.closedRange current hclosed
  rw [expandNeighbor_eq]
  split_ifs with h1 h2 h3 h4 h5
  · exact ⟨hcore, rfl, fun n => le_rfl, fun n _ => rfl, fun _ hcl _ _ => absurd h2 hcl⟩
  · exact ⟨hcore, rfl, fun n => le_rfl, fun n _ => rfl,
      fun _ _ _ hs => absurd h4 (not_lt.2 hs)⟩
  · -- the relaxation branch
    have hslope : |getHeight world (current % (world.width : Int))
        (current / (world.width : Int)) -
        getHeight world (current % (world.width : Int) + d.1)
          (current / (world.width : Int) + d.2.1)| ≤ options.maxSlope :=
      not_lt.1 h4
    have hvr0 : 0 ≤ getIndex world.width (current % (world.width : Int) + d.1)
        (current / (world.width : Int) + d.2.1) := getIndex_nonneg h1.1 h1.2.1
    have hvrt : getIndex world.width (current % (world.width : Int) + d.1)
        (current / (world.width : Int) + d.2.1) <
        ((world.width * world.height : Nat) : Int) := getIndex_lt_total world _ _ h1
    have hnx : getIndex world.width (current % (world.width : Int) + d.1)
        (current / (world.width : Int) + d.2.1) % (world.width : Int) =
        current % (world.width : Int) + d.1 :=
      getIndex_emod world.width _ _ h1.1 h1.2.2.1
    have hny : getIndex world.width (current % (world.width : Int) + d.1)
        (current / (world.width : Int) + d.2.1) / (world.width : Int) =
        current / (world.width : Int) + d.2.1 :=
      getIndex_ediv world.width _ _ h1.1 h1.2.2.1
    have hvc : getIndex world.width (current % (world.width : Int) + d.1)
        (current / (world.width : Int) + d.2.1) ≠ current := by
      intro hh
      rw [hh] at h2
      exact h2 hclosed
    have hcpos := neighbors_cost_pos options.allowDiagonal d hd
    have htgnn : 0 ≤ st.gScore current + d.2.2 :=
      add_nonneg (hcore.gNonneg current) (le_of_lt hcpos)
    have htglt : st.gScore current + d.2.2 < INF :=
      lt_of_lt_of_le h5 (hcore.gLeInf _)
    have hvstart : getIndex world.width (current % (world.width : Int) + d.1)
        (current / (world.width : Int) + d.2.1) ≠
        getIndex world.width start.x start.y := by
      intro hh
      rw [hh, hcore.gStart] at h5
      linarith
    -- the heap update
    have hup := heapUpdate_spec
      (setAt st.fScore
        (getIndex world.width (current % (world.width : Int) + d.1)
          (current / (world.width : Int) + d.2.1))
        (st.gScore current + d.2.2 +
          heuristic (current % (world.width : Int) + d.1)
            (current / (world.width : Int) + d.2.1) goal.x goal.y))
      st.fScore st.heap st.positions
      (getIndex world.width (current % (world.width : Int) + d.1)
        (current / (world.width : Int) + d.2.1))
      hcore.heapInv
      (by
        intro m hm hmne
        simp only [setAt]
        rw [if_neg hmne])
      (by
        intro hm
        simp only [setAt, if_true]
        rw [hcore.fDef _ hm, hnx, hny]
        exact add_le_add_right (le_of_lt h5) _)
    have hgdec : ∀ n : Int,
        setAt st.gScore
          (getIndex world.width (current % (world.width : Int) + d.1)
            (current / (world.width : Int) + d.2.1))
          (st.gScore current + d.2.2) n ≤ st.gScore n := by
      intro n
      simp only [setAt]
      by_cases hn : n = getIndex world.width (current % (world.width : Int) + d.1)
        (current / (world.width : Int) + d.2.1)
      · rw [if_pos hn, hn]
        exact le_of_lt h5
      · rw [if_neg hn]
    have hgclosed : ∀ n : Int, st.closed n = 1 →
        setAt st.gScore
          (getIndex world.width (current % (world.width : Int) + d.1)
            (current / (world.width : Int) + d.2.1))
          (st.gScore current + d.2.2) n = st.gScore n := by
      intro n hn
      simp only [setAt]
      rw [if_neg]
      intro hh
      rw [hh] at hn
      exact h2 hn
    refine ⟨?_, rfl, hgdec, hgclosed, ?_⟩
    · refine ⟨?_, ?_, ?_, ?_, ?_, ?_, ?_, ?_, ?_, ?_, ?_, ?_, ?_, ?_⟩
      · exact hup.2
      ·
        intro n hn
        rcases (hup.1 n).1 hn with hn' | rfl
        · exact hcore.memRange n hn'
        · exact ⟨hvr0, hvrt⟩
      ·
        intro n hn
        rcases (hup.1 n).1 hn with hn' | rfl
        · exact hcore.memOpen n hn'
        · exact h2
      ·
        intro n hn
        simp only [setAt]
        by_cases hnv : n = getIndex world.width
          (current % (world.width : Int) + d.1)
          (current / (world.width : Int) + d.2.1)
        · rw [if_pos hnv]
          exact htglt
        · rw [if_neg hnv]
          rcases (hup.1 n).1 hn with hn' | hn''
          · exact hcore.memFinite n hn'
          · exact absurd hn'' hnv
      ·
        intro n
        simp only [setAt]
        by_cases hnv : n = getIndex world.width
          (current % (world.width : Int) + d.1)
          (current / (world.width : Int) + d.2.1)
        · rw [if_pos hnv]
          exact htgnn
        · rw [if_neg hnv]
          exact hcore.gNonneg n
      ·
        intro n
        simp only [setAt]
        by_cases hnv : n = getIndex world.width
          (current % (world.width : Int) + d.1)
          (current / (world.width : Int) + d.2.1)
        · rw [if_pos hnv]
          exact le_of_lt htglt
        · rw [if_neg hnv]
          exact hcore.gLeInf n
      ·
        simp only [setAt]
        rw [if_neg (fun hh => hvstart hh.symm)]
        exact hcore.gStart
      ·
        intro n hn
        simp only [setAt]
        by_cases hnv : n = getIndex world.width
          (current % (world.width : Int) + d.1)
          (current / (world.width : Int) + d.2.1)
        · rw [if_pos hnv, if_pos hnv, hnv, hnx, hny]
        · rw [if_neg hnv, if_neg hnv]
          rcases (hup.1 n).1 hn with hn' | hn''
          · exact hcore.fDef n hn'
          · exact absurd hn'' hnv
      ·
        intro n hn0 hnt hncl hng
        by_cases hnv : n = getIndex world.width
          (current % (world.width : Int) + d.1)
          (current / (world.width : Int) + d.2.1)
        · exact (hup.1 n).2 (Or.inr hnv)
        · simp only [setAt] at hng
          rw [if_neg hnv] at hng
          exact (hup.1 n).2 (Or.inl (hcore.openComplete n hn0 hnt hncl hng))
      ·
        simp only [setAt]
        rw [if_neg (fun hh => hvstart hh.symm)]
        exact hcore.cfStart
      ·
        intro n hng hns
        by_cases hnv : n = getIndex world.width
          (current % (world.width : Int) + d.1)
          (current / (world.width : Int) + d.2.1)
        · simp only [setAt]
          rw [if_pos hnv]
          omega
        · simp only [setAt] at hng ⊢
          rw [if_neg hnv] at hng
          rw [if_neg hnv]
          exact hcore.gFiniteCf n hng hns
      ·
        intro n hcf
        by_cases hnv : n = getIndex world.width
          (current % (world.width : Int) + d.1)
          (current / (world.width : Int) + d.2.1)
        · subst hnv
          simp only [setAt, if_true] at hcf ⊢
          have hvpt : idxPoint world.width
              (getIndex world.width (current % (world.width : Int) + d.1)
                (current / (world.width : Int) + d.2.1)) =
              ⟨current % (world.width : Int) + d.1,
                current / (world.width : Int) + d.2.1⟩ := by
            unfold idxPoint
            rw [hnx, hny]
          refine ⟨⟨hcrange.1, hcrange.2⟩, ⟨hvr0, hvrt⟩, ?_, ?_⟩
          · rw [hvpt]
            show stepOk world revealed options
              ⟨current % (world.width : Int), current / (world.width : Int)⟩ _
            refine ⟨?_, ?_, ?_⟩
            · exact offset_adjacentStep options.allowDiagonal d hd _
            · exact h3
            · exact hslope
          · have hsc := stepCost_offset options.allowDiagonal d hd
              (current % (world.width : Int)) (current / (world.width : Int))
            have hcpt : idxPoint world.width current =
              ⟨current % (world.width : Int), current / (world.width : Int)⟩ := rfl
            rw [if_neg (fun hh => hvc hh.symm), hcpt, hvpt, hsc]
        · simp only [setAt] at hcf ⊢
          rw [if_neg hnv] at hcf
          rw [if_neg hnv]
          obtain ⟨ha, hb, hc, hineq⟩ := hcore.cfValid n hcf
          refine ⟨ha, hb, hc, ?_⟩
          rw [if_neg hnv]
          by_cases hpv : st.cameFrom n = getIndex world.width
            (current % (world.width : Int) + d.1)
            (current / (world.width : Int) + d.2.1)
          · rw [if_pos hpv]
            refine le_trans (add_le_add_right ?_ _) hineq
            rw [hpv]
            exact le_of_lt h5
          · rw [if_neg hpv]
            exact hineq
      · exact hcore.closedRange
      ·
        intro n hn p hp
        simp only [setAt]
        rw [if_neg (fun hh => h2 (by rw [← hh]; exact hn))]
        exact hcore.closedLB n hn p hp
    · intro hb hcl hp hs
      simp only [setAt, if_true]
      rw [if_neg (fun hh => hvc hh.symm)]
  · exact ⟨hcore, rfl, fun n => le_rfl, fun n _ => rfl,
      fun _ _ _ _ => not_lt.1 h5⟩
  · exact ⟨hcore, rfl, fun n => le_rfl, fun n _ => rfl, fun _ _ hp _ => absurd hp h3⟩
  · exact ⟨hcore, rfl, fun n => le_rfl, fun n _ => rfl, fun hb _ _ _ => absurd hb h1⟩

/-- Folding the relaxation over a list of offsets preserves the core
invariant and establishes every processed offset's relaxation guarantee. -/
theorem expand_fold (world : WorldData) (revealed : Int → Nat)
    (options : PathOptions) (start goal : GridPoint) (current : Int) :
    ∀ (ds : List (Int × Int × Cost)) (st : SearchState),
    (∀ d ∈ ds, d ∈ neighborsFor options.allowDiagonal) →
    CoreInv world revealed options start goal st →
    st.closed current = 1 →
    CoreInv world revealed options start goal
      (ds.foldl (expandNeighbor world revealed goal options current) st) ∧
    (ds.foldl (expandNeighbor world revealed goal options current) st).closed =
      st.closed ∧
    (∀ n : Int,
      (ds.foldl (expandNeighbor world revealed goal options current) st).gScore n ≤
        st.gScore n) ∧
    (∀ n : Int, st.closed n = 1 →
      (ds.foldl (expandNeighbor world revealed goal options current) st).gScore n =
        st.gScore n) ∧
    (∀ d ∈ ds, EdgeRelaxed world revealed options
      (ds.foldl (expandNeighbor world revealed goal options current) st) current d) ∧
    (∀ (u : Int) (d' : Int × Int × Cost), st.closed u = 1 →
      EdgeRelaxed world revealed options st u d' →
      EdgeRelaxed world revealed options
        (ds.foldl (expandNeighbor world revealed goal options current) st) u d') := by
  intro ds
  induction ds with
  | nil =>
    intro st hds hcore hcl
    exact ⟨hcore, rfl, fun n => le_rfl, fun n _ => rfl,
      fun d hd => absurd hd (List.not_mem_nil d), fun u d' _ h => h⟩
  | cons d ds ih =>
    intro st hds hcore hcl
    obtain ⟨hc1, hc2, hc3, hc4, hc5⟩ := expand_step world revealed options start goal
      current st hcore hcl d (hds d (List.mem_cons_self d ds))
    have hcl1 : (expandNeighbor world revealed goal options current st d).closed
        current = 1 := by
      rw [hc2]
      exact hcl
    obtain ⟨hr1, hr2, hr3, hr4, hr5, hr6⟩ :=
      ih (expandNeighbor world revealed goal options current st d)
        (fun d' hd' => hds d' (List.mem_cons_of_mem d hd')) hc1 hcl1
    simp only [List.foldl_cons]
    refine ⟨hr1, hr2.trans hc2, fun n => le_trans (hr3 n) (hc3 n), ?_, ?_, ?_⟩
    · intro n hn
      exact (hr4 n (by rw [hc2]; exact hn)).trans (hc4 n hn)
    · intro d'' hd''
      rcases List.mem_cons.1 hd'' with rfl | hmem
      · exact hr6 current d'' hcl1 hc5
      · exact hr5 d'' hmem
    · intro u d' hu hrel
      refine hr6 u d' (by rw [hc2]; exact hu) ?_
      exact edgeRelaxed_mono world revealed options st _ u d' hc2 hc3 (hc4 u hu) hrel

/-- While a node with minimal f-score sits in the open heap, its g-score
plus heuristic is a lower bound (up to the heuristic at the endpoint) on
the cost of every valid path — unless the path's endpoint is closed with
the recorded lower bound, or the path already costs at least the infinity
fill value. -/
theorem astar_lower_bound (world : WorldData) (revealed : Int → Nat)
    (options : PathOptions) (start goal : GridPoint) (st : SearchState)
    (hinv : LoopInv world revealed options start goal st)
    (u : Int) (hu : u ∈ st.heap)
    (humin : ∀ m ∈ st.heap, st.fScore u ≤ st.fScore m) :
    ∀ (p : List GridPoint) (z : Int), 0 ≤ z →
    z < ((world.width * world.height : Nat) : Int) →
    ValidPath world revealed options start (idxPoint world.width z) p →
    (st.gScore u + heuristic (u % (world.width : Int)) (u / (world.width : Int))
        goal.x goal.y ≤
      pathCost p + heuristic (z % (world.width : Int)) (z / (world.width : Int))
        goal.x goal.y ∨
    INF ≤ pathCost p ∨
    (st.closed z = 1 ∧ st.gScore z ≤ pathCost p)) := by
  intro p
  induction p using List.reverseRecOn with
  | nil =>
    intro z hz0 hzt hp
    obtain ⟨hh, _, _, _⟩ := hp
    simp at hh
  | append_singleton q b ih =>
    intro z hz0 hzt hp
    obtain ⟨hh, hl, hsb, hch⟩ := hp
    rw [List.getLast?_concat] at hl
    have hb : b = idxPoint world.width z := Option.some.inj hl
    cases q with
    | nil =>
      have hbs : b = start := by simpa using hh
      have hzi : z = getIndex world.width start.x start.y := by
        have h2 : idxPoint world.width z = start := hb.symm.trans hbs
        have h3 : z % (world.width : Int) = start.x := by
          rw [← h2]
          rfl
        have h4 : z / (world.width : Int) = start.y := by
          rw [← h2]
          rfl
        rw [← h3, ← h4, getIndex_idxPoint]
      by_cases hcz : st.closed z = 1
      · right; right
        refine ⟨hcz, ?_⟩
        have hg0 : st.gScore z = 0 := by
          rw [hzi]
          exact hinv.gStart
        rw [hg0]
        exact pathCost_nonneg _
      · left
        have hg0 : st.gScore z = 0 := by
          rw [hzi]
          exact hinv.gStart
        have hgz : st.gScore z < INF := by
          rw [hg0]
          decide
        have hmem := hinv.openComplete z hz0 hzt hcz hgz
        have hfle := humin z hmem
        rw [hinv.fDef u hu, hinv.fDef z hmem, hg0, zero_add] at hfle
        have hpc : pathCost ([] ++ [b]) = 0 := rfl
        rw [hpc, zero_add]
        exact hfle
    | cons c q' =>
      have hhq : c = start := by simpa using hh
      have hlq : (c :: q').getLast? =
          some ((c :: q').getLast (List.cons_ne_nil c q')) :=
        List.getLast?_eq_getLast _ _
      rw [List.chain'_append] at hch
      obtain ⟨hchq, hchb, hstep⟩ := hch
      have hsab : stepOk world revealed options
          ((c :: q').getLast (List.cons_ne_nil c q')) b := by
        refine hstep _ ?_ b rfl
        rw [hlq]
        rfl
      have hainb : inBounds world ((c :: q').getLast (List.cons_ne_nil c q')).x
          ((c :: q').getLast (List.cons_ne_nil c q')).y := by
        cases q' with
        | nil =>
          have ha : (([c] : List GridPoint).getLast (List.cons_ne_nil c [])) = c := rfl
          rw [ha, hhq]
          exact hsb
        | cons e q'' =>
          have ham : (c :: e :: q'').getLast (List.cons_ne_nil c (e :: q'')) ∈
              e :: q'' := by
            rw [List.getLast_cons (List.cons_ne_nil e q'')]
            exact List.getLast_mem _
          exact (chain_tail_passable world revealed options (c :: e :: q'') hchq _
            ham).1
      have hz'0 : 0 ≤ getIndex world.width
          ((c :: q').getLast (List.cons_ne_nil c q')).x
          ((c :: q').getLast (List.cons_ne_nil c q')).y :=
        getIndex_nonneg hainb.1 hainb.2.1
      have hz't := getIndex_lt_total world _ _ hainb
      have hptz' : idxPoint world.width (getIndex world.width
          ((c :: q').getLast (List.cons_ne_nil c q')).x
          ((c :: q').getLast (List.cons_ne_nil c q')).y) =
          (c :: q').getLast (List.cons_ne_nil c q') :=
        idxPoint_getIndex world _ _ hainb
      have hvq : ValidPath world revealed options start
          (idxPoint world.width (getIndex world.width
            ((c :: q').getLast (List.cons_ne_nil c q')).x
            ((c :: q').getLast (List.cons_ne_nil c q')).y)) (c :: q') := by
        refine ⟨by simp [hhq], ?_, hsb, hchq⟩
        rw [hptz']
        exact hlq
      have hih := ih _ hz'0 hz't hvq
      have hpc : pathCost ((c :: q') ++ [b]) =
          pathCost (c :: q') + stepCost ((c :: q').getLast (List.cons_ne_nil c q')) b :=
        pathCost_append_last (c :: q') _ b hlq
      obtain ⟨dstep, hdmem, hdx, hdy⟩ :=
        adjacentStep_offset options.allowDiagonal _ b hsab.1
      have hax : getIndex world.width ((c :: q').getLast (List.cons_ne_nil c q')).x
          ((c :: q').getLast (List.cons_ne_nil c q')).y % (world.width : Int) =
          ((c :: q').getLast (List.cons_ne_nil c q')).x :=
        getIndex_emod _ _ _ hainb.1 hainb.2.2.1
      have hay : getIndex world.width ((c :: q').getLast (List.cons_ne_nil c q')).x
          ((c :: q').getLast (List.cons_ne_nil c q')).y / (world.width : Int) =
          ((c :: q').getLast (List.cons_ne_nil c q')).y :=
        getIndex_ediv _ _ _ hainb.1 hainb.2.2.1
      have hbx : z % (world.width : Int) = b.x := by
        rw [hb]
        rfl
      have hby : z / (world.width : Int) = b.y := by
        rw [hb]
        rfl
      have hbz : getIndex world.width b.x b.y = z := by
        rw [← hbx, ← hby, getIndex_idxPoint]
      have hsc : stepCost ((c :: q').getLast (List.cons_ne_nil c q')) b =
          dstep.2.2 := by
        have hs0 := stepCost_offset options.allowDiagonal dstep hdmem
          ((c :: q').getLast (List.cons_ne_nil c q')).x
          ((c :: q').getLast (List.cons_ne_nil c q')).y
        rw [← hdx, ← hdy] at hs0
        exact hs0
      rcases hih with hA | hB | ⟨hCcl, hCg⟩
      · left
        rw [hpc]
        have hcons := heuristic_consistent options.allowDiagonal dstep hdmem
          ((c :: q').getLast (List.cons_ne_nil c q')).x
          ((c :: q').getLast (List.cons_ne_nil c q')).y goal.x goal.y
        rw [← hdx, ← hdy, ← hbx, ← hby] at hcons
        rw [hax, hay] at hA
        refine le_trans hA (le_trans (add_le_add_left hcons _) (le_of_eq ?_))
        rw [hsc]
        ring
      · right; left
        rw [hpc]
        exact le_trans hB (le_add_of_nonneg_right (le_of_lt (stepCost_pos _ b)))
      · by_cases hcz : st.closed z = 1
        · right; right
          refine ⟨hcz, ?_⟩
          refine hinv.closedLB z hcz _ ⟨hh, ?_, hsb, ?_⟩
          · rw [List.getLast?_concat, hb]
          · rw [List.chain'_append]
            exact ⟨hchq, hchb, hstep⟩
        · have hrel := hinv.edgeLB _ hCcl dstep hdmem
          unfold EdgeRelaxed at hrel
          rw [hax, hay, ← hdx, ← hdy, hbz] at hrel
          have hbinb : inBounds world b.x b.y := hsab.2.1.1
          have hgle := hrel hbinb hcz hsab.2.1 hsab.2.2
          have hgz : st.gScore z ≤ pathCost ((c :: q') ++ [b]) := by
            rw [hpc, hsc]
            exact le_trans hgle (add_le_add_right hCg _)
          by_cases hfin : st.gScore z < INF
          · left
            have hmem := hinv.openComplete z hz0 hzt hcz hfin
            have hfle := humin z hmem
            rw [hinv.fDef u hu, hinv.fDef z hmem] at hfle
            exact le_trans hfle (add_le_add_right hgz _)
          · right; left
            exact le_trans (not_lt.1 hfin) hgz

/-- The node about to be popped has the spec-side optimal g-score: no
valid path to its cell can cost less. -/
theorem astar_pop_optimal (world : WorldData) (revealed : Int → Nat)
    (options : PathOptions) (start goal : GridPoint) (st : SearchState)
    (hinv : LoopInv world revealed options start goal st)
    (root : Int) (rest : List Int) (hh : st.heap = root :: rest) :
    ∀ p : List GridPoint,
      ValidPath world revealed options start (idxPoint world.width root) p →
      st.gScore root ≤ pathCost p := by
  intro p hp
  have hu : root ∈ st.heap := by
    rw [hh]
    exact List.mem_cons_self root rest
  have humin : ∀ m ∈ st.heap, st.fScore root ≤ st.fScore m := by
    intro m hm
    have hmin := heap_min_mem st.fScore st.heap st.positions hinv.heapInv m hm
    have hr0 : st.heap.getD 0 0 = root := by
      rw [hh]
      rfl
    rwa [hr0] at hmin
  have hr := hinv.memRange root hu
  rcases astar_lower_bound world revealed options start goal st hinv root hu humin p
    root hr.1 hr.2 hp with hA | hB | ⟨hC, _⟩
  · exact le_of_add_le_add_right hA
  · exact le_trans (hinv.gLeInf root) hB
  · exact absurd hC (hinv.memOpen root hu)

/-- One loop iteration — pop the root, close it, relax its neighbours —
preserves the full loop invariant. -/
theorem astar_iter_preserve (world : WorldData) (revealed : Int → Nat)
    (options : PathOptions) (start goal : GridPoint) (st : SearchState)
    (hinv : LoopInv world revealed options start goal st)
    (root : Int) (rest : List Int) (hh : st.heap = root :: rest) :
    LoopInv world revealed options start goal
      ((neighborsFor options.allowDiagonal).foldl
        (expandNeighbor world revealed goal options root)
        { st with
          heap := (heapPop st.fScore st.heap st.positions).2.1
          positions := (heapPop st.fScore st.heap st.positions).2.2
          closed := setAt st.closed root 1 }) := by
  have hheapinv : HeapInv st.fScore (root :: rest) st.positions := by
    rw [← hh]
    exact hinv.heapInv
  have hspec := heapPop_spec st.fScore st.positions root rest hheapinv
  rw [hh]
  have hrootmem : root ∈ st.heap := by
    rw [hh]
    exact List.mem_cons_self root rest
  have hrootrange := hinv.memRange root hrootmem
  have hcore1 : CoreInv world revealed options start goal
      { st with
        heap := (heapPop st.fScore (root :: rest) st.positions).2.1
        positions := (heapPop st.fScore (root :: rest) st.positions).2.2
        closed := setAt st.closed root 1 } := by
    refine ⟨hspec.2.2.2.1, ?_, ?_, ?_, hinv.gNonneg, hinv.gLeInf, hinv.gStart,
      ?_, ?_, hinv.cfStart, hinv.gFiniteCf, hinv.cfValid, ?_, ?_⟩
    · intro n hn
      have := (hspec.2.2.1 n).1 hn
      rw [← hh] at this
      exact hinv.memRange n this.1
    · intro n hn
      obtain ⟨hm, hne⟩ := (hspec.2.2.1 n).1 hn
      show setAt st.closed root 1 n ≠ 1
      simp only [setAt]
      rw [if_neg hne]
      rw [← hh] at hm
      exact hinv.memOpen n hm
    · intro n hn
      have := (hspec.2.2.1 n).1 hn
      rw [← hh] at this
      exact hinv.memFinite n this.1
    · intro n hn
      have := (hspec.2.2.1 n).1 hn
      rw [← hh] at this
      exact hinv.fDef n this.1
    · intro n hn0 hnt hncl hng
      have hnr : n ≠ root := by
        intro hzz
        apply hncl
        show setAt st.closed root 1 n = 1
        simp only [setAt]
        rw [if_pos hzz]
      have hncl' : st.closed n ≠ 1 := by
        intro hzz
        apply hncl
        show setAt st.closed root 1 n = 1
        simp only [setAt]
        rw [if_neg hnr]
        exact hzz
      have hmem := hinv.openComplete n hn0 hnt hncl' hng
      rw [hh] at hmem
      exact (hspec.2.2.1 n).2 ⟨hmem, hnr⟩
    · intro n hn
      show 0 ≤ n ∧ n < ((world.width * world.height : Nat) : Int)
      by_cases hnr : n = root
      · rw [hnr]
        exact hrootrange
      · refine hinv.closedRange n ?_
        have hn' : setAt st.closed root 1 n = 1 := hn
        simp only [setAt] at hn'
        rw [if_neg hnr] at hn'
        exact hn'
    · intro n hn p hp
      by_cases hnr : n = root
      · subst hnr
        exact astar_pop_optimal world revealed options start goal st hinv n rest hh
          p hp
      · refine hinv.closedLB n ?_ p hp
        have hn' : setAt st.closed root 1 n = 1 := hn
        simp only [setAt] at hn'
        rw [if_neg hnr] at hn'
        exact hn'
  have hcl1 : (({ st with
      heap := (heapPop st.fScore (root :: rest) st.positions).2.1
      positions := (heapPop st.fScore (root :: rest) st.positions).2.2
      closed := setAt st.closed root 1 } : SearchState)).closed root = 1 := by
    show setAt st.closed root 1 root = 1
    simp only [setAt, if_true]
  obtain ⟨hf1, hf2, hf3, hf4, hf5, hf6⟩ := expand_fold world revealed options start
    goal root (neighborsFor options.allowDiagonal) _ (fun d hd => hd) hcore1 hcl1
  refine ⟨hf1, ?_⟩
  intro u hu d hd
  rw [hf2] at hu
  have hu' : setAt st.closed root 1 u = 1 := hu
  by_cases hur : u = root
  · subst hur
    exact hf5 d hd
  · simp only [setAt] at hu'
    rw [if_neg hur] at hu'
    refine hf6 u d hu ?_
    have hrel := hinv.edgeLB u hu' d hd
    intro h1 h2 h3 h4
    refine hrel h1 (fun hcv => h2 ?_) h3 h4
    show setAt st.closed root 1 _ = 1
    simp only [setAt]
    split_ifs with hv
    · rfl
    · exact hcv

/-- The parent-pointer walk measure strictly drops from a node to any node
with strictly smaller g-score. -/
theorem gMeasure_lt (st : SearchState) (total : Nat) (a b : Int)
    (ha0 : 0 ≤ a) (hat : a < (total : Int))
    (hg : st.gScore a < st.gScore b) :
    gMeasure st total a < gMeasure st total b := by
  unfold gMeasure
  apply Finset.card_lt_card
  have hsub : (Finset.Icc (0 : Int) ((total : Int) - 1)).filter
      (fun m => st.gScore m < st.gScore a) ⊆
      (Finset.Icc (0 : Int) ((total : Int) - 1)).filter
      (fun m => st.gScore m < st.gScore b) := by
    intro m hm
    rw [Finset.mem_filter] at hm ⊢
    exact ⟨hm.1, lt_trans hm.2 hg⟩
  rw [Finset.ssubset_iff_of_subset hsub]
  refine ⟨a, ?_, ?_⟩
  · rw [Finset.mem_filter, Finset.mem_Icc]
    exact ⟨⟨ha0, by omega⟩, hg⟩
  · rw [Finset.mem_filter]
    rintro ⟨_, hlt⟩
    exact lt_irrefl _ hlt

/-- The walk measure is at most the number of cells. -/
theorem gMeasure_le_total (st : SearchState) (total : Nat) (node : Int) :
    gMeasure st total node ≤ total := by
  unfold gMeasure
  calc ((Finset.Icc (0 : Int) ((total : Int) - 1)).filter
      (fun m => st.gScore m < st.gScore node)).card
      ≤ (Finset.Icc (0 : Int) ((total : Int) - 1)).card :=
        Finset.card_filter_le _ _
    _ = total := by
      rw [Int.card_Icc]
      omega

/-- Under the core invariant, the parent-pointer walk from any in-range
node with finite g-score produces (reversed onto the accumulator) a valid
chain from the start whose cost is at most the node's g-score, with every
point after the start passable. -/
theorem reconstruct_spec (world : WorldData) (revealed : Int → Nat)
    (options : PathOptions) (start goal : GridPoint) (st : SearchState)
    (hcore : CoreInv world revealed options start goal st)
    (hstart : inBounds world start.x start.y) :
    ∀ (fuel : Nat) (node : Int) (acc : List GridPoint),
    0 ≤ node → node < ((world.width * world.height : Nat) : Int) →
    st.gScore node < INF →
    gMeasure st (world.width * world.height) node < fuel →
    ∃ L : List GridPoint,
      reconstructGo st.cameFrom world.width fuel node acc = acc ++ L.reverse ∧
      L.head? = some start ∧
      L.getLast? = some (idxPoint world.width node) ∧
      List.Chain' (stepOk world revealed options) L ∧
      pathCost L ≤ st.gScore node ∧
      ∀ q ∈ L.tail, isCellPassable world revealed q.x q.y options := by
  intro fuel
  induction fuel with
  | zero =>
    intro node acc h0 ht hg hm
    omega
  | succ fuel ih =>
    intro node acc h0 ht hg hm
    have hne : node ≠ -1 := by omega
    by_cases hns : node = getIndex world.width start.x start.y
    · subst hns
      refine ⟨[start], ?_, rfl, ?_, List.chain'_singleton _, hcore.gNonneg _, ?_⟩
      · simp only [reconstructGo]
        rw [if_neg hne, hcore.cfStart, reconstructGo_neg_one]
        have hpt : (⟨getIndex world.width start.x start.y % (world.width : Int),
            getIndex world.width start.x start.y / (world.width : Int)⟩ :
            GridPoint) = start := idxPoint_getIndex world start.x start.y hstart
        rw [hpt]
        simp
      · rw [idxPoint_getIndex world start.x start.y hstart]
        rw [show (⟨start.x, start.y⟩ : GridPoint) = start from rfl]
        rfl
      · intro q hq
        simp at hq
    · have hcf := hcore.gFiniteCf node hg hns
      obtain ⟨hpr, hnr, hstepok, hineq⟩ := hcore.cfValid node hcf
      have hcpos := stepCost_pos (idxPoint world.width (st.cameFrom node))
        (idxPoint world.width node)
      have hglt : st.gScore (st.cameFrom node) < st.gScore node :=
        lt_of_lt_of_le (lt_add_of_pos_right _ hcpos) hineq
      have hgp : st.gScore (st.cameFrom node) < INF := lt_trans hglt hg
      have hmp : gMeasure st (world.width * world.height) (st.cameFrom node) <
          fuel := by
        have := gMeasure_lt st (world.width * world.height) (st.cameFrom node)
          node hpr.1 hpr.2 hglt
        omega
      obtain ⟨L', hL'eq, hL'h, hL'l, hL'c, hL'cost, hL'pass⟩ :=
        ih (st.cameFrom node) (acc ++ [idxPoint world.width node]) hpr.1 hpr.2
          hgp hmp
      refine ⟨L' ++ [idxPoint world.width node], ?_, ?_, ?_, ?_, ?_, ?_⟩
      · simp only [reconstructGo]
        rw [if_neg hne]
        have hpt : (⟨node % (world.width : Int), node / (world.width : Int)⟩ :
            GridPoint) = idxPoint world.width node := rfl
        rw [hpt, hL'eq]
        simp [List.reverse_append]
      · cases L' with
        | nil => simp at hL'h
        | cons a t => simpa using hL'h
      · rw [List.getLast?_concat]
      · rw [List.chain'_append]
        refine ⟨hL'c, List.chain'_singleton _, ?_⟩
        intro x hx y hy
        rw [hL'l] at hx
        simp only [List.head?_cons, Option.mem_def, Option.some.injEq] at hx hy
        rw [← hx, ← hy]
        exact hstepok
      · rw [pathCost_append_last L' _ _ hL'l]
        exact le_trans (add_le_add_right hL'cost _) hineq
      · intro q hq
        cases L' with
        | nil => simp at hL'h
        | cons a t =>
          rw [List.cons_append, List.tail_cons] at hq
          rcases List.mem_append.1 hq with hq' | hq'
          · exact hL'pass q hq'
          · rcases List.mem_singleton.1 hq' with rfl
            exact hstepok.2.1

/-- The unfolding of one loop iteration. -/
theorem astarLoop_succ (world : WorldData) (revealed : Int → Nat)
    (goal : GridPoint) (goalIndex : Int) (options : PathOptions) (fuel : Nat)
    (st : SearchState) :
    astarLoop world revealed goal goalIndex options (fuel + 1) st =
      if st.heap.isEmpty then none
      else if (heapPop st.fScore st.heap st.positions).1 = -1 then none
      else if (heapPop st.fScore st.heap st.positions).1 = goalIndex then
        some (reconstructPath st.cameFrom
          (heapPop st.fScore st.heap st.positions).1 world.width
          (world.width * world.height + 1))
      else
        astarLoop world revealed goal goalIndex options fuel
          ((neighborsFor options.allowDiagonal).foldl
            (expandNeighbor world revealed goal options
              (heapPop st.fScore st.heap st.positions).1)
            { st with
              heap := (heapPop st.fScore st.heap st.positions).2.1
              positions := (heapPop st.fScore st.heap st.positions).2.2
              closed := setAt st.closed
                (heapPop st.fScore st.heap st.positions).1 1 }) := rfl

/-- Every successful run of the A* loop from an invariant-satisfying state
returns a valid start-to-goal path, passable after its first point, of
minimal cost among all valid paths. -/
theorem astarLoop_spec (world : WorldData) (revealed : Int → Nat)
    (options : PathOptions) (start goal : GridPoint)
    (hstart : inBounds world start.x start.y)
    (hgoal : inBounds world goal.x goal.y) :
    ∀ (fuel : Nat) (st : SearchState) (p : List GridPoint),
    LoopInv world revealed options start goal st →
    astarLoop world revealed goal (getIndex world.width goal.x goal.y) options
      fuel st = some p →
    ValidPath world revealed options start goal p ∧
    (∀ q ∈ p.tail, isCellPassable world revealed q.x q.y options) ∧
    (∀ q : List GridPoint, ValidPath world revealed options start goal q →
      pathCost p ≤ pathCost q) := by
  intro fuel
  induction fuel with
  | zero =>
    intro st p hinv hrun
    simp [astarLoop] at hrun
  | succ fuel ih =>
    intro st p hinv hrun
    rw [astarLoop_succ] at hrun
    by_cases hemp : st.heap.isEmpty
    · rw [if_pos hemp] at hrun
      simp at hrun
    · rw [if_neg hemp] at hrun
      obtain ⟨root, rest, hh⟩ :=
        List.exists_cons_of_ne_nil (show st.heap ≠ [] by simpa using hemp)
      have hheapinv : HeapInv st.fScore (root :: rest) st.positions := by
        rw [← hh]
        exact hinv.heapInv
      have hpop := heapPop_spec st.fScore st.positions root rest hheapinv
      have hc1 : (heapPop st.fScore st.heap st.positions).1 = root := by
        rw [hh]
        exact hpop.1
      rw [hc1] at hrun
      have hrootmem : root ∈ st.heap := by
        rw [hh]
        exact List.mem_cons_self root rest
      have hrange := hinv.memRange root hrootmem
      rw [if_neg (by omega : ¬root = -1)] at hrun
      by_cases hgoalhit : root = getIndex world.width goal.x goal.y
      · rw [if_pos hgoalhit] at hrun
        have hp := Option.some.inj hrun
        have hgfin : st.gScore root < INF := hinv.memFinite root hrootmem
        have hmlt : gMeasure st (world.width * world.height) root <
            world.width * world.height + 1 := by
          have := gMeasure_le_total st (world.width * world.height) root
          omega
        obtain ⟨L, hLeq, hLh, hLl, hLc, hLcost, hLpass⟩ :=
          reconstruct_spec world revealed options start goal st hinv.toCoreInv
            hstart (world.width * world.height + 1) root [] hrange.1 hrange.2
            hgfin hmlt
        have hpL : p = L := by
          rw [← hp]
          unfold reconstructPath
          rw [hLeq]
          simp
        rw [hpL]
        have hgpt : idxPoint world.width root = goal := by
          rw [hgoalhit]
          rw [idxPoint_getIndex world goal.x goal.y hgoal]
        have hvalid : ValidPath world revealed options start goal L := by
          refine ⟨hLh, ?_, hstart, hLc⟩
          rw [hLl, hgpt]
        refine ⟨hvalid, hLpass, ?_⟩
        intro q hq
        have hopt := astar_pop_optimal world revealed options start goal st hinv
          root rest hh q (by rw [hgpt]; exact hq)
        exact le_trans hLcost hopt
      · rw [if_neg hgoalhit] at hrun
        have hpres := astar_iter_preserve world revealed options start goal st
          hinv root rest hh
        exact ih _ p hpres hrun

/-- findPath with its let-bindings expanded. -/
theorem findPath_eq (world : WorldData) (revealed : Int → Nat)
    (start goal : GridPoint) (options : PathOptions) :
    findPath world revealed start goal options =
      if ¬inBounds world start.x start.y ∨ ¬inBounds world goal.x goal.y then none
      else if revealed (getIndex world.width goal.x goal.y) = 0 then none
      else if ¬isCellPassable world revealed goal.x goal.y options then none
      else
        astarLoop world revealed goal (getIndex world.width goal.x goal.y) options
          (world.width * world.height + 1)
          { gScore := setAt (fun _ => INF) (getIndex world.width start.x start.y) 0
            fScore := setAt (fun _ => INF) (getIndex world.width start.x start.y)
              (heuristic start.x start.y goal.x goal.y)
            cameFrom := fun _ => -1
            closed := fun _ => 0
            positions := (heapPush
              (setAt (fun _ => INF) (getIndex world.width start.x start.y)
                (heuristic start.x start.y goal.x goal.y))
              [] (fun _ => -1) (getIndex world.width start.x start.y)).2
            heap := (heapPush
              (setAt (fun _ => INF) (getIndex world.width start.x start.y)
                (heuristic start.x start.y goal.x goal.y))
              [] (fun _ => -1) (getIndex world.width start.x start.y)).1 } := rfl

/-- Pushing the start node into the empty heap just records it. -/
theorem heapPush_empty (scores : Int → Cost) (node : Int) :
    heapPush scores [] (fun _ => -1) node =
      ([node], setAt (fun _ => -1) node 0) := by
  unfold heapPush
  rw [if_neg (by simp)]
  rfl

/-- The state findPath starts the loop from satisfies the loop invariant. -/
theorem initial_loopInv (world : WorldData) (revealed : Int → Nat)
    (options : PathOptions) (start goal : GridPoint)
    (hstart : inBounds world start.x start.y) :
    LoopInv world revealed options start goal
      { gScore := setAt (fun _ => INF) (getIndex world.width start.x start.y) 0
        fScore := setAt (fun _ => INF) (getIndex world.width start.x start.y)
          (heuristic start.x start.y goal.x goal.y)
        cameFrom := fun _ => -1
        closed := fun _ => 0
        positions := (heapPush
          (setAt (fun _ => INF) (getIndex world.width start.x start.y)
            (heuristic start.x start.y goal.x goal.y))
          [] (fun _ => -1) (getIndex world.width start.x start.y)).2
        heap := (heapPush
          (setAt (fun _ => INF) (getIndex world.width start.x start.y)
            (heuristic start.x start.y goal.x goal.y))
          [] (fun _ => -1) (getIndex world.width start.x start.y)).1 } := by
  rw [heapPush_empty]
  have hsx := getIndex_emod world.width start.x start.y hstart.1 hstart.2.2.1
  have hsy := getIndex_ediv world.width start.x start.y hstart.1 hstart.2.2.1
  refine ⟨⟨⟨⟨?_, ?_, ?_⟩, ?_⟩, ?_, ?_, ?_, ?_, ?_, ?_, ?_, ?_, ?_, ?_, ?_, ?_, ?_⟩, ?_⟩
  · intro i j hi hj _
    simp at hi hj
    omega
  · intro i hi
    simp at hi
    subst hi
    show setAt (fun _ => -1) (getIndex world.width start.x start.y) 0
      (([getIndex world.width start.x start.y] : List Int).getD 0 0) = 0
    simp [setAt]
  · intro n hn
    have hne : n ≠ getIndex world.width start.x start.y := by simpa using hn
    show setAt (fun _ => -1) (getIndex world.width start.x start.y) 0 n = -1
    simp [setAt, hne]
  · intro i h0 hi
    simp at hi
    omega
  · intro n hn
    have hne : n = getIndex world.width start.x start.y := by simpa using hn
    subst hne
    exact ⟨getIndex_nonneg hstart.1 hstart.2.1, getIndex_lt_total world _ _ hstart⟩
  · intro n _
    simp
  · intro n hn
    have hne : n = getIndex world.width start.x start.y := by simpa using hn
    subst hne
    show setAt (fun _ => INF) _ 0 _ < INF
    simp only [setAt, if_true]
    decide
  · intro n
    show (0 : Cost) ≤ setAt (fun _ => INF) _ 0 n
    simp only [setAt]
    split_ifs
    · decide
    · decide
  · intro n
    show setAt (fun _ => INF) _ 0 n ≤ INF
    simp only [setAt]
    split_ifs
    · decide
    · exact le_rfl
  · show setAt (fun _ => INF) _ 0 (getIndex world.width start.x start.y) = 0
    simp [setAt]
  · intro n hn
    have hne : n = getIndex world.width start.x start.y := by simpa using hn
    subst hne
    show setAt (fun _ => INF) _ (heuristic start.x start.y goal.x goal.y) _ =
      setAt (fun _ => INF) _ 0 _ + heuristic _ _ goal.x goal.y
    simp only [setAt, if_true]
    rw [hsx, hsy, zero_add]
  · intro n hn0 hnt hncl hng
    by_cases hne : n = getIndex world.width start.x start.y
    · simpa using hne
    · show n ∈ [getIndex world.width start.x start.y]
      exfalso
      simp [setAt, hne] at hng
  · rfl
  · intro n hng hns
    exfalso
    simp [setAt, hns] at hng
  · intro n hn
    exact absurd rfl hn
  · intro n hn
    simp at hn
  · intro n hn
    simp at hn
  · intro u hu
    simp at hu

/-- What a successful findPath call guarantees: a valid start-to-goal path,
passable after its first point, of minimal cost among all valid paths. -/
theorem findPath_some_spec (world : WorldData) (revealed : Int → Nat)
    (start goal : GridPoint) (options : PathOptions) (p : List GridPoint)
    (h : findPath world revealed start goal options = some p) :
    ValidPath world revealed options start goal p ∧
    (∀ q ∈ p.tail, isCellPassable world revealed q.x q.y options) ∧
    (∀ q : List GridPoint, ValidPath world revealed options start goal q →
      pathCost p ≤ pathCost q) := by
  rw [findPath_eq] at h
  by_cases hb : ¬inBounds world start.x start.y ∨ ¬inBounds world goal.x goal.y
  · rw [if_pos hb] at h
    simp at h
  · rw [if_neg hb] at h
    push_neg at hb
    obtain ⟨hstart, hgoal⟩ := hb
    by_cases hrev : revealed (getIndex world.width goal.x goal.y) = 0
    · rw [if_pos hrev] at h
      simp at h
    · rw [if_neg hrev] at h
      by_cases hpass : ¬isCellPassable world revealed goal.x goal.y options
      · rw [if_pos hpass] at h
        simp at h
      · rw [if_neg hpass] at h
        exact astarLoop_spec world revealed options start goal hstart hgoal _ _ p
          (initial_loopInv world revealed options start goal hstart) h

/-- C1, corrected: every path findPath returns leads from start to goal,
consecutive points are adjacent under the selected connectivity with height
deltas within maxSlope, and every point after the first is passable at call
time; the start point is only guaranteed to be in bounds, because findPath
never checks the start cell's passability or reveal state. -/
theorem c1_path_validity_amended (world : WorldData) (revealed : Int → Nat)
    (start goal : GridPoint) (options : PathOptions) (p : List GridPoint)
    (h : findPath world revealed start goal options = some p) :
    ValidPath world revealed options start goal p ∧
    ∀ q ∈ p.tail, isCellPassable world revealed q.x q.y options :=
  ⟨(findPath_some_spec world revealed start goal options p h).1,
    (findPath_some_spec world revealed start goal options p h).2.1⟩

/-- C1 witness: on the 1×1 Soil world with everything revealed, the
returned path [(0,0)] is valid and has every point after the first
passable. -/
theorem c1_path_validity_amended_witness :
    ValidPath soilWorld1 maskOnes optsAxis ⟨0, 0⟩ ⟨0, 0⟩ [⟨0, 0⟩] ∧
    ∀ q ∈ ([⟨0, 0⟩] : List GridPoint).tail,
      isCellPassable soilWorld1 maskOnes q.x q.y optsAxis :=
  c1_path_validity_amended soilWorld1 maskOnes ⟨0, 0⟩ ⟨0, 0⟩ optsAxis
    [⟨0, 0⟩] (by with_unfolding_all decide)

/-- C1 counterexample to the claim as stated: on the 2×1 world whose start
cell (0,0) is Water (hence impassable), findPath still returns the path
[(0,0), (1,0)], so not every point of a returned path is passable at call
time. -/
theorem c1_path_validity_counterexample :
    findPath waterStartWorld maskOnes ⟨0, 0⟩ ⟨1, 0⟩ optsAxis =
      some [⟨0, 0⟩, ⟨1, 0⟩] ∧
    ¬∀ q ∈ ([⟨0, 0⟩, ⟨1, 0⟩] : List GridPoint),
      isCellPassable waterStartWorld maskOnes q.x q.y optsAxis := by
  constructor
  · with_unfolding_all decide
  · decide

/-- C2, corrected: the cost of every returned path is minimal over all
paths the search admits: head start, last goal, adjacent steps within
maxSlope, every point after the first passable. The start cell's own
passability is not part of the constraint — findPath never checks it. -/
theorem c2_path_optimality_amended (world : WorldData) (revealed : Int → Nat)
    (start goal : GridPoint) (options : PathOptions) (p : List GridPoint)
    (h : findPath world revealed start goal options = some p) :
    IsLeast {c : Cost | ∃ q : List GridPoint,
      ValidPath world revealed options start goal q ∧ pathCost q = c}
      (pathCost p) := by
  obtain ⟨hv, _, hopt⟩ := findPath_some_spec world revealed start goal options p h
  constructor
  · exact ⟨p, hv, rfl⟩
  · rintro c ⟨q, hq, rfl⟩
    exact hopt q hq

/-- C2 witness: on the 1×1 Soil world with everything revealed, the
returned path [(0,0)] has the least cost among all valid paths. -/
theorem c2_path_optimality_amended_witness :
    IsLeast {c : Cost | ∃ q : List GridPoint,
      ValidPath soilWorld1 maskOnes optsAxis ⟨0, 0⟩ ⟨0, 0⟩ q ∧ pathCost q = c}
      (pathCost [(⟨0, 0⟩ : GridPoint)]) :=
  c2_path_optimality_amended soilWorld1 maskOnes ⟨0, 0⟩ ⟨0, 0⟩ optsAxis
    [⟨0, 0⟩] (by with_unfolding_all decide)

/-- C2 counterexample to the claim as stated: on the 2×1 world whose start
cell (0,0) is Water, findPath returns a path, yet no path whose EVERY cell
is passable exists at all, so the returned cost cannot equal a minimum over
such paths. -/
theorem c2_path_optimality_counterexample :
    (∃ p : List GridPoint,
      findPath waterStartWorld maskOnes ⟨0, 0⟩ ⟨1, 0⟩ optsAxis = some p) ∧
    ¬∃ q : List GridPoint,
      StrictValidPath waterStartWorld maskOnes optsAxis ⟨0, 0⟩ ⟨1, 0⟩ q := by
  constructor
  · exact ⟨[⟨0, 0⟩, ⟨1, 0⟩], by with_unfolding_all decide⟩
  · rintro ⟨q, ⟨⟨hhead, _, _, _⟩, hall⟩⟩
    cases q with
    | nil => simp at hhead
    | cons a t =>
      have ha : a = ⟨0, 0⟩ := by simpa using hhead
      have hpass := hall a (List.mem_cons_self a t)
      rw [ha] at hpass
      exact absurd hpass (by decide)

end Handwrought
